import Mathlib

/-!
Verification of the FilEx concurrent filesystem crawler and batch
persistence pipeline.

The development shallowly embeds the scanning/writing core of the
repository:

* `get_file_metadata` embeds `src/utils.py`: the metadata extractor,
  parameterised by a `stat` oracle (`os.stat`), returning `none` on any
  of the caught error classes (`FileNotFoundError`, `OSError`, any other
  exception).
* The scanner (`src/file_scanner.py`) is embedded as a small-step state
  machine over `ScanState`.  The filesystem is a finite tree `FSNode`
  (symbolic links are not followed by the code, so the visited portion of
  the filesystem is a tree); a directory node carries the outcome of
  `os.scandir` on it (`ok`, `PermissionError`, or another error).  The
  `pending` field models the `unfinished_tasks` counter of the Python
  `queue.Queue` (incremented by `put`, decremented by `task_done`), which
  is exactly what `Queue.join()` blocks on.  Actions:
  `takeTask` = `path_queue.get()` plus the sentinel check and `os.scandir`;
  `processEntry` = one iteration of the `for entry in os.scandir(...)` loop;
  `completeTask` = the `finally: path_queue.task_done()` for a directory;
  `injectSentinels` = the coordinator code after `path_queue.join()`
  returns (one `None` per worker).  The ghost flag `everQuiesced` records
  whether `pending` has been observed equal to zero at some step boundary.
* The batch writer (`_database_writer_loop` / `_execute_batch` in
  `src/database_manager.py`) is embedded as a state machine over
  `WriterState`.  `push` = `add_file_to_queue`, `setFinished` =
  `set_indexing_finished`, `setStop` = the `stop_event.set()` performed by
  `stop_writer_thread`, and `step commitOk` is one iteration of the
  writer's `while True` loop (with `commitOk` the outcome of the
  `executemany`/`commit` of a batch, `False` modelling a raised
  `mysql.connector.Error`).  `pushedCount` and `lostCount` are ghost
  bookkeeping for pushed records and records of failed (rolled back)
  batches.
* `insert_on_duplicate_key_update` embeds the SQL statement prepared in
  `_database_writer_loop` against the `files` table of `create_table`:
  the conflict key is the stored generated column
  `filepath_hash = SHA2(filepath)` (modelled by a hash parameter), and a
  conflict updates the six non-key columns in place.
* `raceStep` embeds the unsynchronised `self.total_files_scanned += 1`
  (and the directory counter) of the scanner workers: CPython executes
  the augmented assignment as a load of the attribute followed by a
  store, and a thread switch may occur in between.
-/

/-- Result of `os.stat` on an accessible file.  Timestamps are modelled
directly in milliseconds (the source converts float seconds to
milliseconds via `int(st_ctime * 1000)`). -/
structure StatInfo where
  st_size : Nat
  st_ctime_ms : Int
  st_mtime_ms : Int

/-- The error classes caught by `get_file_metadata` in `src/utils.py`. -/
inductive StatError where
  | fileNotFound
  | osError (msg : String)
  | otherExc (msg : String)

/-- The dictionary built by `get_file_metadata`: the seven fields pushed
through the record queue and persisted. -/
structure FileMetadata where
  filepath : String
  filename : String
  extension : String
  size : Nat
  creation_time : Int
  modification_time : Int
  tags : String

/-- `os.path.basename` for POSIX paths: the part after the last slash. -/
def os_path_basename (p : String) : String :=
  String.mk ((p.toList.reverse.takeWhile (fun c => c ≠ '/')).reverse)

/-- The extension part of `os.path.splitext`: the suffix from the last
dot, except that the leading run of dots of the name never starts an
extension (`.bashrc` has no extension). -/
def splitext_ext (name : String) : String :=
  let cs := name.toList
  let leading := (cs.takeWhile (fun c => c == '.')).length
  match cs.reverse.findIdx? (fun c => c == '.') with
  | none => ""
  | some k =>
    let d := cs.length - 1 - k
    if leading < d then String.mk (cs.drop d) else ""

/-- The extension computation of `get_file_metadata`:
`os.path.splitext(filename)[1].lower()` with the leading dot removed. -/
def extensionOf (filename : String) : String :=
  let e := (splitext_ext filename).toLower
  if e.startsWith "." then e.drop 1 else e

/-- The record built by `get_file_metadata` once `os.stat` has succeeded. -/
def metadataFromStat (filepath : String) (st : StatInfo) : FileMetadata :=
  { filepath := filepath
    filename := os_path_basename filepath
    extension := extensionOf (os_path_basename filepath)
    size := st.st_size
    creation_time := st.st_ctime_ms
    modification_time := st.st_mtime_ms
    tags := "" }

/-- `get_file_metadata` from `src/utils.py`, parameterised by the `os.stat`
oracle.  Every caught error class yields `None`. -/
def get_file_metadata (stat : String → Except StatError StatInfo)
    (filepath : String) : Option FileMetadata :=
  match stat filepath with
  | .ok st => some (metadataFromStat filepath st)
  | .error .fileNotFound => none
  | .error (.osError _) => none
  | .error (.otherExc _) => none

/-- Outcome of `os.scandir` on a directory. -/
inductive ListOutcome where
  | ok
  | permError
  | otherError (msg : String)

/-- A finite filesystem tree.  A `file` carries the result of `os.stat`
on it (`none` when the file is inaccessible at stat time); a `dir`
carries the outcome of listing it; `other` is an entry that is neither a
regular file nor a directory under `follow_symlinks=False`. -/
inductive FSNode where
  | file (name : String) (st : Option StatInfo)
  | dir (name : String) (out : ListOutcome) (children : List FSNode)
  | other (name : String)

/-- `entry.path` of `os.scandir`: parent path joined with the entry name. -/
def joinPath (p name : String) : String := p ++ "/" ++ name

/-- Whether a node is a directory (`entry.is_dir(follow_symlinks=False)`). -/
def FSNode.isDirB : FSNode → Bool
  | .dir _ _ _ => true
  | _ => false

mutual
/-- Number of directories the crawl discovers in a subtree whose root
node has itself been discovered: the node itself if it is a directory,
plus, when its listing succeeds, the directories discovered below it. -/
def discoveredDirs : FSNode → Nat
  | .file _ _ => 0
  | .other _ => 0
  | .dir _ .ok cs => 1 + discoveredDirsList cs
  | .dir _ .permError _ => 1
  | .dir _ (.otherError _) _ => 1

def discoveredDirsList : List FSNode → Nat
  | [] => 0
  | c :: cs => discoveredDirs c + discoveredDirsList cs
end

mutual
/-- Number of accessible regular files in a subtree: files whose `stat`
succeeds, inside directories whose listing succeeds. -/
def accFiles : FSNode → Nat
  | .file _ (some _) => 1
  | .file _ none => 0
  | .other _ => 0
  | .dir _ .ok cs => accFilesList cs
  | .dir _ .permError _ => 0
  | .dir _ (.otherError _) _ => 0

def accFilesList : List FSNode → Nat
  | [] => 0
  | c :: cs => accFiles c + accFilesList cs
end

mutual
/-- Number of accessible directories in a subtree: directories whose own
listing succeeds (a permission-denied directory is reachable but not
accessible). -/
def accessibleDirs : FSNode → Nat
  | .file _ _ => 0
  | .other _ => 0
  | .dir _ .ok cs => 1 + accessibleDirsList cs
  | .dir _ .permError _ => 0
  | .dir _ (.otherError _) _ => 0

def accessibleDirsList : List FSNode → Nat
  | [] => 0
  | c :: cs => accessibleDirs c + accessibleDirsList cs
end

/-- Directories still to be discovered strictly below an already
discovered node. -/
def futureDirs : FSNode → Nat
  | .dir _ .ok cs => discoveredDirsList cs
  | _ => 0

/-- An item of the scanner's `path_queue`: a directory task (the path
that was `put`, resolved to its tree node) or the `None` stop-sentinel. -/
inductive QItem where
  | task (path : String) (node : FSNode)
  | sentinel

/-- State of one scanner worker thread inside `_scan_directory_task`:
`idle` = about to call `path_queue.get()`; `expanding p es` = holding the
directory task for path `p` with the entries `es` of its listing still to
be iterated (the empty list when the listing failed or is exhausted);
`exited` = the worker observed a sentinel and left its loop. -/
inductive WorkerState where
  | idle
  | expanding (dirPath : String) (remaining : List FSNode)
  | exited

def WorkerState.isExpanding : WorkerState → Bool
  | .expanding _ _ => true
  | _ => false

def WorkerState.isExited : WorkerState → Bool
  | .exited => true
  | _ => false

/-- Global state of the scan: the `path_queue` contents, the per-worker
states, the queue's `unfinished_tasks` counter (`pending`), the two run
counters, the records pushed to the database queue, the log of
`print("Error scanning ...")` lines, whether the coordinator has injected
the stop-sentinels, and the ghost flag `everQuiesced` recording that
`pending` has been zero at some step boundary. -/
structure ScanState where
  queue : List QItem
  workers : List WorkerState
  pending : Nat
  totalFiles : Nat
  totalDirs : Nat
  records : List FileMetadata
  scanLog : List String
  numWorkers : Nat
  sentinelsSent : Bool
  everQuiesced : Bool

/-- The entries the `for entry in os.scandir(current_dir)` loop will
iterate: the children when the listing succeeds, nothing when `scandir`
raises (including `NotADirectoryError` on a non-directory task, which the
generic `except Exception` also swallows). -/
def childEntries : FSNode → List FSNode
  | .dir _ .ok cs => cs
  | _ => []

/-- What `_scan_directory_task` prints for a directory task:
`PermissionError` is passed over silently, any other listing failure is
logged. -/
def takeLog (p : String) : FSNode → List String
  | .dir _ (.otherError msg) _ => ["Error scanning " ++ p ++ ": " ++ msg]
  | .dir _ _ _ => []
  | .file _ _ => ["Error scanning " ++ p ++ ": NotADirectoryError"]
  | .other _ => ["Error scanning " ++ p ++ ": NotADirectoryError"]

/-- The interleaved atomic actions of the scan.  `takeTask w` is worker
`w` executing `path_queue.get()` together with the sentinel check and the
call to `os.scandir`; `processEntry w` is one iteration of its entry
loop; `completeTask w` is its `finally: path_queue.task_done()`;
`injectSentinels` is the coordinator resuming from `path_queue.join()`
(which requires `unfinished_tasks = 0`) and putting one `None` per
worker. -/
inductive ScanAction where
  | takeTask (w : Nat)
  | processEntry (w : Nat)
  | completeTask (w : Nat)
  | injectSentinels

/-- Ghost update: remember whenever the pending counter is observed at
zero. -/
def tickQuiesced (s : ScanState) : Bool := s.everQuiesced || s.pending == 0

/-- One atomic step of the scan; `none` when the action is not enabled in
the given state. -/
def applyScanAction (s : ScanState) : ScanAction → Option ScanState
  | .takeTask w =>
    match s.workers[w]? with
    | some .idle =>
      match s.queue with
      | QItem.sentinel :: rest =>
        some { s with queue := rest
                      workers := s.workers.set w .exited
                      pending := s.pending - 1
                      everQuiesced := tickQuiesced s }
      | QItem.task p n :: rest =>
        some { s with queue := rest
                      workers := s.workers.set w (.expanding p (childEntries n))
                      scanLog := s.scanLog ++ takeLog p n
                      everQuiesced := tickQuiesced s }
      | [] => none
    | _ => none
  | .processEntry w =>
    match s.workers[w]? with
    | some (.expanding p (e :: es)) =>
      match e with
      | .dir name out cs =>
        some { s with queue := s.queue ++ [QItem.task (joinPath p name) (.dir name out cs)]
                      workers := s.workers.set w (.expanding p es)
                      pending := s.pending + 1
                      totalDirs := s.totalDirs + 1
                      everQuiesced := tickQuiesced s }
      | .file name (some st) =>
        some { s with records := s.records ++ [metadataFromStat (joinPath p name) st]
                      totalFiles := s.totalFiles + 1
                      workers := s.workers.set w (.expanding p es)
                      everQuiesced := tickQuiesced s }
      | .file _ none =>
        some { s with workers := s.workers.set w (.expanding p es)
                      everQuiesced := tickQuiesced s }
      | .other _ =>
        some { s with workers := s.workers.set w (.expanding p es)
                      everQuiesced := tickQuiesced s }
    | _ => none
  | .completeTask w =>
    match s.workers[w]? with
    | some (.expanding _ []) =>
      some { s with workers := s.workers.set w .idle
                    pending := s.pending - 1
                    everQuiesced := tickQuiesced s }
    | _ => none
  | .injectSentinels =>
    if s.pending == 0 && !s.sentinelsSent then
      some { s with queue := s.queue ++ List.replicate s.numWorkers QItem.sentinel
                    pending := s.pending + s.numWorkers
                    sentinelsSent := true
                    everQuiesced := tickQuiesced s }
    else none

/-- Run a list of scan actions from a state; fails if any action is not
enabled. -/
def runScan (s : ScanState) : List ScanAction → Option ScanState
  | [] => some s
  | a :: acts =>
    match applyScanAction s a with
    | some s' => runScan s' acts
    | none => none

/-- The state set up by `start_scanning` before the workers run: each
root path is `put` (incrementing `unfinished_tasks`) and counted in
`total_directories_scanned`. -/
def initScanState (roots : List (String × FSNode)) (nw : Nat) : ScanState :=
  { queue := roots.map (fun r => QItem.task r.1 r.2)
    workers := List.replicate nw .idle
    pending := roots.length
    totalFiles := 0
    totalDirs := roots.length
    records := []
    scanLog := []
    numWorkers := nw
    sentinelsSent := false
    everQuiesced := roots.isEmpty }

/-- `run_indexer` only passes paths that satisfy `os.path.isdir`. -/
def rootsAreDirs (roots : List (String × FSNode)) : Prop :=
  ∀ r ∈ roots, (r.2).isDirB = true

def rootsDirsTotal (roots : List (String × FSNode)) : Nat :=
  (roots.map (fun r => discoveredDirs r.2)).sum

def rootsFilesTotal (roots : List (String × FSNode)) : Nat :=
  (roots.map (fun r => accFiles r.2)).sum

def rootsAccessibleDirsTotal (roots : List (String × FSNode)) : Nat :=
  (roots.map (fun r => accessibleDirs r.2)).sum

/-- `batch_size` in `_database_writer_loop`. -/
def batch_size : Nat := 1000

/-- State of the database writer pipeline: the in-memory
`file_data_queue`, the `is_indexing_finished` flag, the writer's local
`batch_data`, the records committed to the store (`persisted`), the
`processed_count`, the printed batch-error log, the `stop_event`, and
whether the writer loop has exited.  `pushedCount` and `lostCount` are
ghost tallies of records pushed and of records in failed batches. -/
structure WriterState where
  fileQueue : List FileMetadata
  finished : Bool
  batch : List FileMetadata
  persisted : List FileMetadata
  processedCount : Nat
  errorLog : List String
  pushedCount : Nat
  lostCount : Nat
  stopEvent : Bool
  writerDone : Bool

def initWriterState : WriterState :=
  { fileQueue := []
    finished := false
    batch := []
    persisted := []
    processedCount := 0
    errorLog := []
    pushedCount := 0
    lostCount := 0
    stopEvent := false
    writerDone := false }

/-- `_execute_batch`: `executemany` plus `commit` succeed atomically
(`commitOk = true`), incrementing `processed_count` by the batch length;
on a `mysql.connector.Error` the transaction is rolled back (nothing of
the batch reaches `persisted`), the failure is printed, and the records
are lost. -/
def execute_batch (commitOk : Bool) (batch : List FileMetadata)
    (s : WriterState) : WriterState :=
  if commitOk then
    { s with persisted := s.persisted ++ batch
             processedCount := s.processedCount + batch.length }
  else
    { s with errorLog := s.errorLog ++ ["Error during batch execution"]
             lostCount := s.lostCount + batch.length }

/-- Events of the writer pipeline: a scanner worker pushing a record
(`add_file_to_queue`, which the coordinator only does before
`set_indexing_finished`), the finish signal, `stop_event.set()` from
`stop_writer_thread`, and one iteration of the writer loop. -/
inductive WriterAction where
  | push (m : FileMetadata)
  | setFinished
  | setStop
  | step (commitOk : Bool)

/-- One atomic transition of the writer pipeline.  `step` mirrors one
iteration of the `while True` loop of `_database_writer_loop`: pop a
record and extend the batch, flushing it when it reaches `batch_size`;
on an empty queue, recheck `is_indexing_finished` together with queue
emptiness and exit (flushing any partial batch) only when both hold,
otherwise sleep. -/
def applyWriterAction (s : WriterState) : WriterAction → Option WriterState
  | .push m =>
    if s.finished then none
    else some { s with fileQueue := s.fileQueue ++ [m]
                       pushedCount := s.pushedCount + 1 }
  | .setFinished => some { s with finished := true }
  | .setStop => some { s with stopEvent := true }
  | .step commitOk =>
    if s.writerDone then none
    else
      match s.fileQueue with
      | m :: rest =>
        let b := s.batch ++ [m]
        if batch_size ≤ b.length then
          some { execute_batch commitOk b { s with fileQueue := rest } with batch := [] }
        else
          some { s with fileQueue := rest, batch := b }
      | [] =>
        if s.finished then
          some { (if s.batch.isEmpty then s else execute_batch commitOk s.batch s) with
                 batch := [], writerDone := true }
        else some s

/-- Run a list of writer events; fails when an event is not enabled. -/
def runWriter (s : WriterState) : List WriterAction → Option WriterState
  | [] => some s
  | a :: acts =>
    match applyWriterAction s a with
    | some s' => runWriter s' acts
    | none => none

/-- A row of the `files` table.  `id` is the `AUTO_INCREMENT` primary
key; the unique conflict key is the stored generated column
`filepath_hash`, a deterministic hash of `filepath`. -/
structure DBRow where
  id : Nat
  filepath : String
  filename : String
  extension : String
  size : Nat
  creation_time : Int
  modification_time : Int
  tags : String

/-- The `files` table with its auto-increment cursor. -/
structure FilesTable where
  rows : List DBRow
  nextId : Nat

def emptyTable : FilesTable := { rows := [], nextId := 1 }

/-- Whether a row's hash key collides with key `k`. -/
def rowMatches (hash : String → Nat) (k : Nat) (r : DBRow) : Bool :=
  hash r.filepath == k

/-- The `ON DUPLICATE KEY UPDATE` clause: overwrite the six mutable
columns; `id` and `filepath` are not in the update list. -/
def updateRowFields (m : FileMetadata) (r : DBRow) : DBRow :=
  { r with filename := m.filename
           extension := m.extension
           size := m.size
           creation_time := m.creation_time
           modification_time := m.modification_time
           tags := m.tags }

/-- The fresh row created by a plain `INSERT`. -/
def freshRow (t : FilesTable) (m : FileMetadata) : DBRow :=
  { id := t.nextId
    filepath := m.filepath
    filename := m.filename
    extension := m.extension
    size := m.size
    creation_time := m.creation_time
    modification_time := m.modification_time
    tags := m.tags }

/-- Whether the table holds a row whose hash key equals `k`. -/
def keyPresent (hash : String → Nat) (t : FilesTable) (k : Nat) : Bool :=
  t.rows.any (rowMatches hash k)

/-- The `INSERT ... ON DUPLICATE KEY UPDATE` statement of
`_database_writer_loop`, keyed by the unique `filepath_hash` column: when
the key is already present the matching row is updated in place,
otherwise a fresh row is appended. -/
def insert_on_duplicate_key_update (hash : String → Nat) (t : FilesTable)
    (m : FileMetadata) : FilesTable :=
  if keyPresent hash t (hash m.filepath) then
    { t with rows := t.rows.map (fun r =>
        if rowMatches hash (hash m.filepath) r then updateRowFields m r else r) }
  else
    { rows := t.rows ++ [freshRow t m], nextId := t.nextId + 1 }

/-- `cursor.executemany` of the upsert statement: left fold over the
batch. -/
def executeManyUpsert (hash : String → Nat) (t : FilesTable)
    (ms : List FileMetadata) : FilesTable :=
  ms.foldl (insert_on_duplicate_key_update hash) t

/-- Shared state for the run counters of `FileScanner`: the counter
value, and one register per worker holding a loaded-but-not-yet-stored
intermediate value.  `self.total_files_scanned += 1` is a plain
read-modify-write on a shared attribute (the protecting lock in the
source is commented out), which CPython executes as a load of the
attribute followed, possibly after a thread switch, by a store. -/
structure RaceState where
  counter : Nat
  regs : List (Option Nat)

def initRaceState (n : Nat) : RaceState :=
  { counter := 0, regs := List.replicate n none }

/-- The two halves of the augmented assignment executed by worker `w`. -/
inductive RaceAction where
  | load (w : Nat)
  | store (w : Nat)

/-- One interleaved step of the counter updates. -/
def raceStep (s : RaceState) : RaceAction → Option RaceState
  | .load w =>
    match s.regs[w]? with
    | some none => some { s with regs := s.regs.set w (some s.counter) }
    | _ => none
  | .store w =>
    match s.regs[w]? with
    | some (some v) => some { counter := v + 1, regs := s.regs.set w none }
    | _ => none

def runRace (s : RaceState) : List RaceAction → Option RaceState
  | [] => some s
  | a :: acts =>
    match raceStep s a with
    | some s' => runRace s' acts
    | none => none

/-- Number of completed increment events in a schedule: one per store. -/
def storeCount (acts : List RaceAction) : Nat :=
  acts.countP (fun a => match a with | .store _ => true | .load _ => false)

/-- Contribution of a queue item to `unfinished_tasks`: one for a
directory task. -/
def qTaskWeight : QItem → Nat
  | .task _ _ => 1
  | .sentinel => 0

/-- Contribution of a queue item to the sentinel count. -/
def qSentWeight : QItem → Nat
  | .task _ _ => 0
  | .sentinel => 1

/-- Directories still to be discovered under a queued task. -/
def qFutureDirs : QItem → Nat
  | .task _ n => futureDirs n
  | .sentinel => 0

/-- Accessible files still to be found under a queued task. -/
def qFutureFiles : QItem → Nat
  | .task _ n => accFiles n
  | .sentinel => 0

/-- Every queued task holds a directory node (only directory entries and
root directories are ever `put`). -/
def qNodeIsDir : QItem → Bool
  | .task _ n => n.isDirB
  | .sentinel => true

/-- One per worker currently holding a dequeued directory task whose
`task_done` has not yet run. -/
def wExpandWeight : WorkerState → Nat
  | .expanding _ _ => 1
  | _ => 0

/-- One per worker that has observed a sentinel and exited. -/
def wExitWeight : WorkerState → Nat
  | .exited => 1
  | _ => 0

/-- Directories still to be discovered from a worker's remaining entries. -/
def wFutureDirs : WorkerState → Nat
  | .expanding _ es => discoveredDirsList es
  | _ => 0

/-- Accessible files still to be found from a worker's remaining entries. -/
def wFutureFiles : WorkerState → Nat
  | .expanding _ es => accFilesList es
  | _ => 0

/-- Number of directory entries in an entry list (each will be `put`,
incrementing the pending counter). -/
def dirCount (es : List FSNode) : Nat :=
  (es.map (fun e => if e.isDirB then 1 else 0)).sum

/-- Invariant of the scan state machine, relative to the totals `D`
(directories that will ever be discovered) and `F` (accessible files) of
the roots.  `pending` is exactly the number of `put` items not yet
`task_done`; sentinels exist only after the coordinator observed
quiescence; the conservation clauses drive the final counter values. -/
structure ScanInv (D F : Nat) (s : ScanState) : Prop where
  workers_len : s.workers.length = s.numWorkers
  pending_eq : s.pending = (s.queue.map qTaskWeight).sum + (s.queue.map qSentWeight).sum
      + (s.workers.map wExpandWeight).sum
  sent_eq : (s.workers.map wExitWeight).sum + (s.queue.map qSentWeight).sum
      = (if s.sentinelsSent then s.numWorkers else 0)
  sent_quiesced : s.sentinelsSent = true → s.everQuiesced = true
  sent_no_tasks : s.sentinelsSent = true → (s.queue.map qTaskWeight).sum = 0
  sent_no_expand : s.sentinelsSent = true → (s.workers.map wExpandWeight).sum = 0
  dirs_conserve : s.totalDirs + (s.queue.map qFutureDirs).sum + (s.workers.map wFutureDirs).sum = D
  files_conserve : s.totalFiles + (s.queue.map qFutureFiles).sum + (s.workers.map wFutureFiles).sum = F
  records_files : s.records.length = s.totalFiles
  queue_dirs : ∀ i ∈ s.queue, qNodeIsDir i = true

/-- Invariant of the writer pipeline: every pushed record is accounted
for (persisted, lost with a failed batch, still queued, or in the current
batch); `processed_count` counts exactly the records of successfully
committed batches; and the loop has exited only with the finish flag set,
the queue drained and the batch flushed. -/
structure WriterInv (s : WriterState) : Prop where
  conserve : s.pushedCount = s.persisted.length + s.lostCount + s.fileQueue.length + s.batch.length
  processed : s.processedCount = s.persisted.length
  done_finished : s.writerDone = true → s.finished = true
  done_queue : s.writerDone = true → s.fileQueue = []
  done_batch : s.writerDone = true → s.batch = []

/-- Membership of a key list, by `Nat` equality. -/
def keyIn (ks : List Nat) (k : Nat) : Bool := ks.any (fun x => x == k)

/-- The hash keys of a record batch. -/
def hashKeys (hash : String → Nat) (ms : List FileMetadata) : List Nat :=
  ms.map (fun m => hash m.filepath)

/-- The table holds a row carrying exactly this record's filepath and
its six mutable fields. -/
def tableHasRecord (t : FilesTable) (m : FileMetadata) : Prop :=
  ∃ r ∈ t.rows, r.filepath = m.filepath ∧ r.filename = m.filename ∧
    r.extension = m.extension ∧ r.size = m.size ∧
    r.creation_time = m.creation_time ∧ r.modification_time = m.modification_time ∧
    r.tags = m.tags

/-- Concrete fixtures used by witnesses and counterexamples. -/
def exStatInfo : StatInfo := { st_size := 100, st_ctime_ms := 1000, st_mtime_ms := 2000 }

def exFileNode : FSNode := .file "a.txt" (some exStatInfo)

/-- A discovered subdirectory whose own listing is permission-denied. -/
def exPermDir : FSNode := .dir "s" .permError []

/-- A root directory with one accessible file and one permission-denied
subdirectory. -/
def exTree : FSNode := .dir "r" .ok [exFileNode, exPermDir]

def exRoots : List (String × FSNode) := [("/r", exTree)]

def exStatFail : String → Except StatError StatInfo := fun _ => .error .fileNotFound

/-- A worker holding a listing that contains one file that became
inaccessible between listing and stat. -/
def exDropState : ScanState :=
  { queue := []
    workers := [.expanding "/r" [.file "b.txt" none]]
    pending := 1
    totalFiles := 0
    totalDirs := 1
    records := []
    scanLog := []
    numWorkers := 1
    sentinelsSent := false
    everQuiesced := false }

def exM1 : FileMetadata :=
  { filepath := "/a", filename := "a", extension := "", size := 1,
    creation_time := 0, modification_time := 0, tags := "" }

def exM2 : FileMetadata :=
  { filepath := "/bb", filename := "bb", extension := "", size := 2,
    creation_time := 0, modification_time := 0, tags := "" }

def exMs : List FileMetadata := [exM1, exM2]

/-- Replacing index `i` in a list changes a mapped sum by the difference
of the images, stated additively. -/
theorem sum_map_set_add (f : α → Nat) : ∀ (l : List α) (i : Nat) (a x : α), l[i]? = some x →
    ((l.set i a).map f).sum + f x = (l.map f).sum + f a := by
  intro l
  induction l with
  | nil => intro i a x h; simp at h
  | cons hd tl ih =>
    intro i a x h
    cases i with
    | zero => simp at h; subst h; simp [List.set]; omega
    | succ n =>
      simp only [List.getElem?_cons_succ] at h
      simp only [List.set, List.map_cons, List.sum_cons]
      have := ih n a x h
      omega

theorem getElem?_some_lt {l : List α} {i : Nat} {x : α} (h : l[i]? = some x) : i < l.length :=
  (List.getElem?_eq_some.mp h).1

theorem sum_map_le_of_getElem? (f : α → Nat) {l : List α} {i : Nat} {x : α}
    (h : l[i]? = some x) : f x ≤ (l.map f).sum :=
  List.single_le_sum (by simp) _ (List.mem_map_of_mem f (List.getElem?_mem h))

/-- A mapped sum vanishes as soon as a pointwise-dominating mapped sum
vanishes. -/
theorem sum_map_zero_of (f g : α → Nat) (hfg : ∀ x, f x = 0 → g x = 0) :
    ∀ (l : List α), (l.map f).sum = 0 → (l.map g).sum = 0 := by
  intro l
  induction l with
  | nil => simp
  | cons hd tl ih =>
    intro h
    simp only [List.map_cons, List.sum_cons] at h ⊢
    have h1 : f hd = 0 := by omega
    have h2 : (tl.map f).sum = 0 := by omega
    rw [hfg hd h1, ih h2]

theorem sum_map_const_one (l : List α) : (l.map (fun _ => (1 : Nat))).sum = l.length := by
  induction l with
  | nil => rfl
  | cons hd tl ih => simp [ih]; omega

theorem sum_map_le_length (f : α → Nat) (hf : ∀ x, f x ≤ 1) :
    ∀ (l : List α), (l.map f).sum ≤ l.length := by
  intro l
  induction l with
  | nil => simp
  | cons hd tl ih =>
    simp only [List.map_cons, List.sum_cons, List.length_cons]
    have := hf hd
    omega

/-- If a mapped sum of zero-one weights equals the length, every element
has weight one. -/
theorem all_one_of_sum_eq_length (f : α → Nat) (hf : ∀ x, f x ≤ 1) :
    ∀ (l : List α), (l.map f).sum = l.length → ∀ x ∈ l, f x = 1 := by
  intro l
  induction l with
  | nil => intro _ x hx; cases hx
  | cons hd tl ih =>
    intro h x hx
    simp only [List.map_cons, List.sum_cons, List.length_cons] at h
    have hhd : f hd ≤ 1 := hf hd
    have htl : (tl.map f).sum ≤ tl.length := sum_map_le_length f hf tl
    rcases List.mem_cons.mp hx with rfl | hx
    · omega
    · exact ih (by omega) x hx

/-- The entries a worker iterates carry exactly the directories still to
be discovered below the dequeued node. -/
theorem discoveredDirsList_childEntries (n : FSNode) :
    discoveredDirsList (childEntries n) = futureDirs n := by
  cases n with
  | file _ _ => rfl
  | other _ => rfl
  | dir name out cs => cases out <;> rfl

/-- For a directory node the entries carry exactly its accessible files. -/
theorem accFilesList_childEntries (n : FSNode) (h : n.isDirB = true) :
    accFilesList (childEntries n) = accFiles n := by
  cases n with
  | file _ st => simp [FSNode.isDirB] at h
  | other _ => simp [FSNode.isDirB] at h
  | dir name out cs => cases out <;> rfl

/-- A discovered directory contributes itself plus its future
directories. -/
theorem discoveredDirs_eq_one_add_futureDirs (n : FSNode) (h : n.isDirB = true) :
    discoveredDirs n = 1 + futureDirs n := by
  cases n with
  | file _ st => simp [FSNode.isDirB] at h
  | other _ => simp [FSNode.isDirB] at h
  | dir name out cs => cases out <;> rfl

/-- Replacing a worker state by one of equal weight leaves a mapped sum
unchanged. -/
theorem sum_map_set_same (f : α → Nat) {l : List α} {i : Nat} {a x : α}
    (h : l[i]? = some x) (hval : f a = f x) :
    ((l.set i a).map f).sum = (l.map f).sum := by
  have := sum_map_set_add f l i a x h
  omega

/-- Every enabled step preserves the scan invariant. -/
theorem scanInv_step {D F : Nat} {s s' : ScanState} {a : ScanAction}
    (hInv : ScanInv D F s) (h : applyScanAction s a = some s') : ScanInv D F s' := by
  obtain ⟨hlen, hpend, hsent, hqsc, hnt, hnx, hdc, hfc, hrf, hqd⟩ := hInv
  cases a with
  | takeTask w =>
    simp only [applyScanAction] at h
    split at h
    · -- the dequeuing worker is idle
      rename_i hw
      split at h
      · -- head of the queue is a sentinel
        rename_i rest hq2
        injection h with h
        subst h
        have hexp := sum_map_set_add wExpandWeight s.workers w .exited .idle hw
        have hexit := sum_map_set_add wExitWeight s.workers w .exited .idle hw
        have hfd := sum_map_set_add wFutureDirs s.workers w .exited .idle hw
        have hff := sum_map_set_add wFutureFiles s.workers w .exited .idle hw
        simp only [wExpandWeight, wExitWeight, wFutureDirs, wFutureFiles] at hexp hexit hfd hff
        rw [hq2] at hpend hsent hnt hdc hfc hqd
        simp only [List.map_cons, List.sum_cons, qTaskWeight, qSentWeight, qFutureDirs,
          qFutureFiles] at hpend hsent hnt hdc hfc
        refine ⟨?_, ?_, ?_, ?_, ?_, ?_, ?_, ?_, ?_, ?_⟩
        · simpa [List.length_set] using hlen
        · simp only; omega
        · simp only
          generalize (if s.sentinelsSent = true then s.numWorkers else 0) = K at hsent ⊢
          omega
        · intro hb
          simp only [tickQuiesced, hqsc hb, Bool.true_or]
        · intro hb; have := hnt hb; simp only; omega
        · intro hb; have := hnx hb; simp only; omega
        · simp only; omega
        · simp only; omega
        · exact hrf
        · intro i hi; exact hqd i (List.mem_cons_of_mem _ hi)
      · -- head of the queue is a directory task
        rename_i p n rest hq2
        injection h with h
        subst h
        have hisdir : n.isDirB = true := by
          have := hqd (QItem.task p n) (by rw [hq2]; exact List.mem_cons_self _ _)
          simpa [qNodeIsDir] using this
        have hexp := sum_map_set_add wExpandWeight s.workers w (.expanding p (childEntries n)) .idle hw
        have hexit := sum_map_set_add wExitWeight s.workers w (.expanding p (childEntries n)) .idle hw
        have hfd := sum_map_set_add wFutureDirs s.workers w (.expanding p (childEntries n)) .idle hw
        have hff := sum_map_set_add wFutureFiles s.workers w (.expanding p (childEntries n)) .idle hw
        simp only [wExpandWeight, wExitWeight, wFutureDirs, wFutureFiles,
          discoveredDirsList_childEntries n, accFilesList_childEntries n hisdir] at hexp hexit hfd hff
        rw [hq2] at hpend hsent hnt hdc hfc hqd
        simp only [List.map_cons, List.sum_cons, qTaskWeight, qSentWeight, qFutureDirs,
          qFutureFiles] at hpend hsent hnt hdc hfc
        refine ⟨?_, ?_, ?_, ?_, ?_, ?_, ?_, ?_, ?_, ?_⟩
        · simpa [List.length_set] using hlen
        · simp only; omega
        · simp only
          generalize (if s.sentinelsSent = true then s.numWorkers else 0) = K at hsent ⊢
          omega
        · intro hb
          simp only [tickQuiesced, hqsc hb, Bool.true_or]
        · intro hb; have := hnt hb; simp only; omega
        · intro hb; have := hnt hb; have := hnx hb; simp only; omega
        · simp only; omega
        · simp only; omega
        · exact hrf
        · intro i hi; exact hqd i (List.mem_cons_of_mem _ hi)
      · -- empty queue: the take blocks
        exact absurd h (by simp)
    · -- worker not idle
      exact absurd h (by simp)
  | processEntry w =>
    simp only [applyScanAction] at h
    split at h
    · rename_i p e es hw
      -- the worker holds entries `e :: es`; from the invariant, sentinels
      -- cannot have been sent while a worker is expanding
      have hmem := sum_map_le_of_getElem? wExpandWeight hw
      simp only [wExpandWeight] at hmem
      have hnosent : s.sentinelsSent = true → False := by
        intro hb; have := hnx hb; omega
      cases e with
      | dir name out cs =>
        injection h with h
        subst h
        have hexp := sum_map_set_add wExpandWeight s.workers w (.expanding p es)
          (.expanding p (.dir name out cs :: es)) hw
        have hexit := sum_map_set_add wExitWeight s.workers w (.expanding p es)
          (.expanding p (.dir name out cs :: es)) hw
        have hfd := sum_map_set_add wFutureDirs s.workers w (.expanding p es)
          (.expanding p (.dir name out cs :: es)) hw
        have hff := sum_map_set_add wFutureFiles s.workers w (.expanding p es)
          (.expanding p (.dir name out cs :: es)) hw
        simp only [wExpandWeight, wExitWeight, wFutureDirs, wFutureFiles, discoveredDirsList,
          accFilesList] at hexp hexit hfd hff
        have hdd : discoveredDirs (.dir name out cs) = 1 + futureDirs (.dir name out cs) :=
          discoveredDirs_eq_one_add_futureDirs _ rfl
        refine ⟨?_, ?_, ?_, ?_, ?_, ?_, ?_, ?_, ?_, ?_⟩
        · simpa [List.length_set] using hlen
        · simp only [List.map_append, List.sum_append, List.map_cons, List.sum_cons,
            qTaskWeight, qSentWeight, List.map_nil, List.sum_nil]
          omega
        · simp only [List.map_append, List.sum_append, List.map_cons, List.sum_cons,
            qTaskWeight, qSentWeight, List.map_nil, List.sum_nil]
          omega
        · intro hb; exact absurd hb (by intro hb'; exact hnosent hb')
        · intro hb; exact absurd hb (by intro hb'; exact hnosent hb')
        · intro hb; exact absurd hb (by intro hb'; exact hnosent hb')
        · simp only [List.map_append, List.sum_append, List.map_cons, List.sum_cons,
            qFutureDirs, List.map_nil, List.sum_nil]
          omega
        · simp only [List.map_append, List.sum_append, List.map_cons, List.sum_cons,
            qFutureFiles, List.map_nil, List.sum_nil]
          omega
        · exact hrf
        · intro i hi
          rcases List.mem_append.mp hi with hi | hi
          · exact hqd i hi
          · rcases List.mem_singleton.mp hi with rfl
            rfl
      | file name st =>
        cases st with
        | some stv =>
          injection h with h
          subst h
          have hexp := sum_map_set_add wExpandWeight s.workers w (.expanding p es)
            (.expanding p (.file name (some stv) :: es)) hw
          have hexit := sum_map_set_add wExitWeight s.workers w (.expanding p es)
            (.expanding p (.file name (some stv) :: es)) hw
          have hfd := sum_map_set_add wFutureDirs s.workers w (.expanding p es)
            (.expanding p (.file name (some stv) :: es)) hw
          have hff := sum_map_set_add wFutureFiles s.workers w (.expanding p es)
            (.expanding p (.file name (some stv) :: es)) hw
          simp only [wExpandWeight, wExitWeight, wFutureDirs, wFutureFiles, discoveredDirsList,
            accFilesList, discoveredDirs, accFiles] at hexp hexit hfd hff
          refine ⟨?_, ?_, ?_, ?_, ?_, ?_, ?_, ?_, ?_, ?_⟩
          · simpa [List.length_set] using hlen
          · simp only; omega
          · simp only; omega
          · intro hb; exact absurd hb (by intro hb'; exact hnosent hb')
          · intro hb; exact absurd hb (by intro hb'; exact hnosent hb')
          · intro hb; exact absurd hb (by intro hb'; exact hnosent hb')
          · simp only; omega
          · simp only; omega
          · simp only [List.length_append, List.length_cons, List.length_nil]; omega
          · exact hqd
        | none =>
          injection h with h
          subst h
          have hexp := sum_map_set_add wExpandWeight s.workers w (.expanding p es)
            (.expanding p (.file name none :: es)) hw
          have hexit := sum_map_set_add wExitWeight s.workers w (.expanding p es)
            (.expanding p (.file name none :: es)) hw
          have hfd := sum_map_set_add wFutureDirs s.workers w (.expanding p es)
            (.expanding p (.file name none :: es)) hw
          have hff := sum_map_set_add wFutureFiles s.workers w (.expanding p es)
            (.expanding p (.file name none :: es)) hw
          simp only [wExpandWeight, wExitWeight, wFutureDirs, wFutureFiles, discoveredDirsList,
            accFilesList, discoveredDirs, accFiles] at hexp hexit hfd hff
          refine ⟨?_, ?_, ?_, ?_, ?_, ?_, ?_, ?_, ?_, ?_⟩
          · simpa [List.length_set] using hlen
          · simp only; omega
          · simp only; omega
          · intro hb; exact absurd hb (by intro hb'; exact hnosent hb')
          · intro hb; exact absurd hb (by intro hb'; exact hnosent hb')
          · intro hb; exact absurd hb (by intro hb'; exact hnosent hb')
          · simp only; omega
          · simp only; omega
          · exact hrf
          · exact hqd
      | other name =>
        injection h with h
        subst h
        have hexp := sum_map_set_add wExpandWeight s.workers w (.expanding p es)
          (.expanding p (.other name :: es)) hw
        have hexit := sum_map_set_add wExitWeight s.workers w (.expanding p es)
          (.expanding p (.other name :: es)) hw
        have hfd := sum_map_set_add wFutureDirs s.workers w (.expanding p es)
          (.expanding p (.other name :: es)) hw
        have hff := sum_map_set_add wFutureFiles s.workers w (.expanding p es)
          (.expanding p (.other name :: es)) hw
        simp only [wExpandWeight, wExitWeight, wFutureDirs, wFutureFiles, discoveredDirsList,
          accFilesList, discoveredDirs, accFiles] at hexp hexit hfd hff
        refine ⟨?_, ?_, ?_, ?_, ?_, ?_, ?_, ?_, ?_, ?_⟩
        · simpa [List.length_set] using hlen
        · simp only; omega
        · simp only; omega
        · intro hb; exact absurd hb (by intro hb'; exact hnosent hb')
        · intro hb; exact absurd hb (by intro hb'; exact hnosent hb')
        · intro hb; exact absurd hb (by intro hb'; exact hnosent hb')
        · simp only; omega
        · simp only; omega
        · exact hrf
        · exact hqd
    · exact absurd h (by simp)
  | completeTask w =>
    simp only [applyScanAction] at h
    split at h
    · rename_i p hw
      injection h with h
      subst h
      have hmem := sum_map_le_of_getElem? wExpandWeight hw
      simp only [wExpandWeight] at hmem
      have hnosent : s.sentinelsSent = true → False := by
        intro hb; have := hnx hb; omega
      have hexp := sum_map_set_add wExpandWeight s.workers w .idle (.expanding p []) hw
      have hexit := sum_map_set_add wExitWeight s.workers w .idle (.expanding p []) hw
      have hfd := sum_map_set_add wFutureDirs s.workers w .idle (.expanding p []) hw
      have hff := sum_map_set_add wFutureFiles s.workers w .idle (.expanding p []) hw
      simp only [wExpandWeight, wExitWeight, wFutureDirs, wFutureFiles, discoveredDirsList,
        accFilesList] at hexp hexit hfd hff
      refine ⟨?_, ?_, ?_, ?_, ?_, ?_, ?_, ?_, ?_, ?_⟩
      · simpa [List.length_set] using hlen
      · simp only; omega
      · simp only
        generalize (if s.sentinelsSent = true then s.numWorkers else 0) = K at hsent ⊢
        omega
      · intro hb; exact absurd hb (by intro hb'; exact hnosent hb')
      · intro hb; exact absurd hb (by intro hb'; exact hnosent hb')
      · intro hb; exact absurd hb (by intro hb'; exact hnosent hb')
      · simp only; omega
      · simp only; omega
      · exact hrf
      · exact hqd
    · exact absurd h (by simp)
  | injectSentinels =>
    simp only [applyScanAction] at h
    split at h
    · rename_i hc
      injection h with h
      subst h
      rw [Bool.and_eq_true, beq_iff_eq, Bool.not_eq_eq_eq_not] at hc
      obtain ⟨hp0, hs0⟩ := hc
      simp only [Bool.not_true] at hs0
      have hrep1 : ((List.replicate s.numWorkers QItem.sentinel).map qSentWeight).sum
          = s.numWorkers := by
        simp [List.map_replicate, qSentWeight, List.sum_replicate]
      have hrep0 : ((List.replicate s.numWorkers QItem.sentinel).map qTaskWeight).sum = 0 := by
        simp [List.map_replicate, qTaskWeight, List.sum_replicate]
      have hrepd : ((List.replicate s.numWorkers QItem.sentinel).map qFutureDirs).sum = 0 := by
        simp [List.map_replicate, qFutureDirs, List.sum_replicate]
      have hrepf : ((List.replicate s.numWorkers QItem.sentinel).map qFutureFiles).sum = 0 := by
        simp [List.map_replicate, qFutureFiles, List.sum_replicate]
      rw [hp0] at hpend
      rw [hs0] at hsent
      simp only [if_neg (by simp : ¬(false = true))] at hsent
      refine ⟨?_, ?_, ?_, ?_, ?_, ?_, ?_, ?_, ?_, ?_⟩
      · exact hlen
      · simp only [List.map_append, List.sum_append, hrep1, hrep0]
        omega
      · have h1 : (s.workers.map wExitWeight).sum = 0 := by omega
        have h2 : (s.queue.map qSentWeight).sum = 0 := by omega
        simp only
        simp [List.map_append, List.sum_append, hrep1, h1, h2, qSentWeight]
      · intro _
        simp [tickQuiesced, hp0]
      · intro _
        simp only [List.map_append, List.sum_append, hrep0]
        omega
      · intro _
        simp only
        omega
      · simp only [List.map_append, List.sum_append, hrepd]
        omega
      · simp only [List.map_append, List.sum_append, hrepf]
        omega
      · exact hrf
      · intro i hi
        rcases List.mem_append.mp hi with hi | hi
        · exact hqd i hi
        · rcases List.eq_of_mem_replicate hi with rfl
          rfl
    · exact absurd h (by simp)

/-- The invariant is preserved along any enabled action sequence. -/
theorem runScan_inv {D F : Nat} :
    ∀ (acts : List ScanAction) (s s' : ScanState),
      ScanInv D F s → runScan s acts = some s' → ScanInv D F s' := by
  intro acts
  induction acts with
  | nil =>
    intro s s' hInv h
    simp only [runScan] at h
    injection h with h
    subst h
    exact hInv
  | cons a acts ih =>
    intro s s' hInv h
    simp only [runScan] at h
    cases ha : applyScanAction s a with
    | none => rw [ha] at h; exact absurd h (by simp)
    | some s1 =>
      rw [ha] at h
      exact ih s1 s' (scanInv_step hInv ha) h

/-- A root directory contributes itself plus its future directories. -/
theorem rootsDirsTotal_split (roots : List (String × FSNode)) (h : rootsAreDirs roots) :
    rootsDirsTotal roots = roots.length + (roots.map (fun r => futureDirs r.2)).sum := by
  induction roots with
  | nil => rfl
  | cons r rs ih =>
    have hr : (r.2).isDirB = true := h r (List.mem_cons_self _ _)
    have hrs : rootsAreDirs rs := fun x hx => h x (List.mem_cons_of_mem _ hx)
    simp only [rootsDirsTotal, List.map_cons, List.sum_cons, List.length_cons] at *
    rw [discoveredDirs_eq_one_add_futureDirs r.2 hr, ih hrs]
    omega

/-- The state prepared by `start_scanning` satisfies the invariant with
the totals of the roots. -/
theorem initScanState_inv (roots : List (String × FSNode)) (nw : Nat)
    (hroots : rootsAreDirs roots) :
    ScanInv (rootsDirsTotal roots) (rootsFilesTotal roots) (initScanState roots nw) := by
  have hq1 : ((roots.map (fun r => QItem.task r.1 r.2)).map qTaskWeight).sum = roots.length := by
    rw [List.map_map]
    have : (qTaskWeight ∘ fun r : String × FSNode => QItem.task r.1 r.2) = fun _ => (1 : Nat) := by
      funext r; rfl
    rw [this, sum_map_const_one]
  have hq2 : ((roots.map (fun r => QItem.task r.1 r.2)).map qSentWeight).sum = 0 := by
    rw [List.map_map]
    have : (qSentWeight ∘ fun r : String × FSNode => QItem.task r.1 r.2) = fun _ => (0 : Nat) := by
      funext r; rfl
    simp [this]
  have hq3 : ((roots.map (fun r => QItem.task r.1 r.2)).map qFutureDirs).sum
      = (roots.map (fun r => futureDirs r.2)).sum := by
    rw [List.map_map]; rfl
  have hq4 : ((roots.map (fun r => QItem.task r.1 r.2)).map qFutureFiles).sum
      = (roots.map (fun r => accFiles r.2)).sum := by
    rw [List.map_map]; rfl
  have hw0 : ∀ (f : WorkerState → Nat), f .idle = 0 →
      ((List.replicate nw WorkerState.idle).map f).sum = 0 := by
    intro f hf
    simp [List.map_replicate, hf, List.sum_replicate]
  refine ⟨?_, ?_, ?_, ?_, ?_, ?_, ?_, ?_, ?_, ?_⟩
  · simp [initScanState]
  · simp only [initScanState, hq1, hq2, hw0 wExpandWeight rfl]
    omega
  · simp only [initScanState, hq2, hw0 wExitWeight rfl]
    simp
  · intro hb; simp [initScanState] at hb
  · intro hb; simp [initScanState] at hb
  · intro hb; simp [initScanState] at hb
  · simp only [initScanState, hq3, hw0 wFutureDirs rfl]
    rw [rootsDirsTotal_split roots hroots]
    omega
  · simp only [initScanState, hq4, hw0 wFutureFiles rfl, rootsFilesTotal]
    omega
  · simp [initScanState]
  · intro i hi
    simp only [initScanState] at hi
    obtain ⟨r, hr, rfl⟩ := List.mem_map.mp hi
    simpa [qNodeIsDir] using hroots r hr

theorem execute_batch_true (b : List FileMetadata) (s : WriterState) :
    execute_batch true b s
      = { s with persisted := s.persisted ++ b
                 processedCount := s.processedCount + b.length } := rfl

theorem execute_batch_false (b : List FileMetadata) (s : WriterState) :
    execute_batch false b s
      = { s with errorLog := s.errorLog ++ ["Error during batch execution"]
                 lostCount := s.lostCount + b.length } := rfl

/-- Every enabled writer event preserves the writer invariant. -/
theorem writerInv_step {s s' : WriterState} {a : WriterAction}
    (hInv : WriterInv s) (h : applyWriterAction s a = some s') : WriterInv s' := by
  obtain ⟨hc, hp, hdf, hdq, hdb⟩ := hInv
  cases a with
  | push m =>
    simp only [applyWriterAction] at h
    split at h
    · exact absurd h (by simp)
    · rename_i hfin
      injection h with h
      subst h
      refine ⟨?_, hp, ?_, ?_, ?_⟩
      · simp only [List.length_append, List.length_cons, List.length_nil]
        omega
      · intro hd; simp only at hd; simp [hdf hd] at hfin
      · intro hd; simp only at hd; simp [hdf hd] at hfin
      · intro hd; simp only at hd; simp [hdf hd] at hfin
  | setFinished =>
    injection h with h
    subst h
    exact ⟨hc, hp, fun _ => rfl, hdq, hdb⟩
  | setStop =>
    injection h with h
    subst h
    exact ⟨hc, hp, hdf, hdq, hdb⟩
  | step commitOk =>
    simp only [applyWriterAction] at h
    split at h
    · exact absurd h (by simp)
    · rename_i hnd
      split at h
      · -- queue head popped into the batch
        rename_i m rest hq
        split at h
        · -- batch reached the threshold and is executed
          injection h with h
          subst h
          rw [hq] at hc
          cases commitOk with
          | true =>
            rw [execute_batch_true]
            refine ⟨?_, ?_, ?_, ?_, ?_⟩
            · simp only [List.length_append, List.length_cons, List.length_nil] at *
              omega
            · simp only [List.length_append, List.length_cons, List.length_nil]
              omega
            · intro hd; simp only at hd; simp [hd] at hnd
            · intro hd; simp only at hd; simp [hd] at hnd
            · intro hd; simp only at hd; simp [hd] at hnd
          | false =>
            rw [execute_batch_false]
            refine ⟨?_, ?_, ?_, ?_, ?_⟩
            · simp only [List.length_append, List.length_cons, List.length_nil] at *
              omega
            · exact hp
            · intro hd; simp only at hd; simp [hd] at hnd
            · intro hd; simp only at hd; simp [hd] at hnd
            · intro hd; simp only at hd; simp [hd] at hnd
        · -- batch below the threshold
          injection h with h
          subst h
          rw [hq] at hc
          refine ⟨?_, hp, ?_, ?_, ?_⟩
          · simp only [List.length_append, List.length_cons, List.length_nil] at *
            omega
          · intro hd; simp only at hd; simp [hd] at hnd
          · intro hd; simp only at hd; simp [hd] at hnd
          · intro hd; simp only at hd; simp [hd] at hnd
      · -- queue empty: recheck the finish flag together with emptiness
        rename_i hq
        split at h
        · -- finished and drained: flush the partial batch and exit
          rename_i hfin
          injection h with h
          subst h
          rw [hq] at hc
          simp only [List.length_nil] at hc
          split
          · -- empty partial batch: nothing to flush
            rename_i hbe
            have hb0 : s.batch = [] := List.isEmpty_iff.mp hbe
            refine ⟨?_, hp, ?_, ?_, ?_⟩
            · simp only [hq, List.length_nil]
              rw [hb0] at hc
              simp only [List.length_nil] at hc
              omega
            · intro _; exact hfin
            · intro _; exact hq
            · intro _; rfl
          · -- flush the trailing partial batch as one transaction
            cases commitOk with
            | true =>
              rw [execute_batch_true]
              refine ⟨?_, ?_, ?_, ?_, ?_⟩
              · simp only [hq, List.length_append, List.length_nil]
                omega
              · simp only [List.length_append]
                omega
              · intro _; exact hfin
              · intro _; exact hq
              · intro _; rfl
            | false =>
              rw [execute_batch_false]
              refine ⟨?_, ?_, ?_, ?_, ?_⟩
              · simp only [hq, List.length_append, List.length_nil]
                omega
              · exact hp
              · intro _; exact hfin
              · intro _; exact hq
              · intro _; rfl
        · -- not finished yet: sleep and loop again
          injection h with h
          subst h
          exact ⟨hc, hp, hdf, hdq, hdb⟩

/-- The writer invariant holds along any enabled event sequence. -/
theorem runWriter_inv :
    ∀ (acts : List WriterAction) (s s' : WriterState),
      WriterInv s → runWriter s acts = some s' → WriterInv s' := by
  intro acts
  induction acts with
  | nil =>
    intro s s' hInv h
    simp only [runWriter] at h
    injection h with h
    subst h
    exact hInv
  | cons a acts ih =>
    intro s s' hInv h
    simp only [runWriter] at h
    cases ha : applyWriterAction s a with
    | none => rw [ha] at h; exact absurd h (by simp)
    | some s1 =>
      rw [ha] at h
      exact ih s1 s' (writerInv_step hInv ha) h

theorem initWriterState_inv : WriterInv initWriterState := by
  refine ⟨rfl, rfl, ?_, ?_, ?_⟩ <;> intro hd <;> simp [initWriterState] at hd

/-- With a healthy sink (every commit succeeds), a finished writer whose
loop has not yet exited drains its queue completely, exits, and persists
every queued and batched record. -/
theorem writer_drain :
    ∀ (rs : List FileMetadata) (s : WriterState), s.finished = true → s.writerDone = false →
      s.fileQueue = rs →
      ∃ s', runWriter s (List.replicate (rs.length + 1) (WriterAction.step true)) = some s' ∧
        s'.writerDone = true ∧
        s'.persisted.length = s.persisted.length + s.batch.length + rs.length := by
  intro rs
  induction rs with
  | nil =>
    intro s hfin hnd hq
    have happ : applyWriterAction s (WriterAction.step true)
        = some { (if s.batch.isEmpty then s else execute_batch true s.batch s) with
                 batch := [], writerDone := true } := by
      simp [applyWriterAction, hnd, hq, hfin]
    refine ⟨{ (if s.batch.isEmpty then s else execute_batch true s.batch s) with
              batch := [], writerDone := true }, ?_, rfl, ?_⟩
    · show runWriter s (List.replicate (0 + 1) (WriterAction.step true)) = _
      simp only [Nat.zero_add, List.replicate, runWriter, happ]
    · cases hbe : s.batch.isEmpty with
      | true =>
        have hb0 : s.batch = [] := List.isEmpty_iff.mp hbe
        simp [hbe, hb0]
      | false =>
        simp [hbe, execute_batch_true]
  | cons r rest ih =>
    intro s hfin hnd hq
    by_cases hth : batch_size ≤ (s.batch ++ [r]).length
    · -- the popped record completes a full batch, which is committed
      have hth2 : batch_size ≤ s.batch.length + 1 := by simpa using hth
      have happ : applyWriterAction s (WriterAction.step true)
          = some { execute_batch true (s.batch ++ [r]) { s with fileQueue := rest } with
                   batch := [] } := by
        simp [applyWriterAction, hnd, hq, hth2]
      rw [execute_batch_true] at happ
      obtain ⟨s3, hrun3, hdone3, hlen3⟩ := ih
        { s with fileQueue := rest, batch := [],
                 persisted := s.persisted ++ (s.batch ++ [r]),
                 processedCount := s.processedCount + (s.batch ++ [r]).length }
        hfin hnd rfl
      refine ⟨s3, ?_, hdone3, ?_⟩
      · show runWriter s (List.replicate (rest.length + 1 + 1) (WriterAction.step true)) = some s3
        rw [List.replicate_succ]
        simp only [runWriter, happ]
        exact hrun3
      · simp only [List.length_append, List.length_cons, List.length_nil] at hlen3 ⊢
        omega
    · -- the popped record joins the partial batch
      have hth2 : ¬batch_size ≤ s.batch.length + 1 := by simpa using hth
      have happ : applyWriterAction s (WriterAction.step true)
          = some { s with fileQueue := rest, batch := s.batch ++ [r] } := by
        simp [applyWriterAction, hnd, hq, hth2]
      obtain ⟨s3, hrun3, hdone3, hlen3⟩ := ih
        { s with fileQueue := rest, batch := s.batch ++ [r] } hfin hnd rfl
      refine ⟨s3, ?_, hdone3, ?_⟩
      · show runWriter s (List.replicate (rest.length + 1 + 1) (WriterAction.step true)) = some s3
        rw [List.replicate_succ]
        simp only [runWriter, happ]
        exact hrun3
      · simp only [List.length_append, List.length_cons, List.length_nil] at hlen3 ⊢
        omega

theorem rowMatches_updateRowFields (hash : String → Nat) (k : Nat) (m : FileMetadata)
    (r : DBRow) : rowMatches hash k (updateRowFields m r) = rowMatches hash k r := rfl

theorem any_congr_fun {p q : α → Bool} (h : ∀ x, p x = q x) :
    ∀ (l : List α), l.any p = l.any q := by
  intro l
  induction l with
  | nil => rfl
  | cons hd tl ih => simp only [List.any_cons, h hd, ih]

/-- The key set of the table after an upsert: the old keys plus the key
of the upserted record. -/
theorem keyPresent_upsert (hash : String → Nat) (t : FilesTable) (m : FileMetadata)
    (k : Nat) :
    keyPresent hash (insert_on_duplicate_key_update hash t m) k
      = (keyPresent hash t k || (hash m.filepath == k)) := by
  unfold insert_on_duplicate_key_update
  split
  · rename_i hpres
    simp only [keyPresent, List.any_map]
    have hcomp : ∀ r : DBRow,
        (rowMatches hash k ∘ fun r =>
          if rowMatches hash (hash m.filepath) r then updateRowFields m r else r) r
        = rowMatches hash k r := by
      intro r
      by_cases hr : rowMatches hash (hash m.filepath) r = true
      · simp [Function.comp, hr, rowMatches_updateRowFields]
      · simp [Function.comp, hr]
    rw [any_congr_fun hcomp]
    cases hk : (hash m.filepath == k) with
    | false => simp [keyPresent]
    | true =>
      have : hash m.filepath = k := by exact_mod_cast Nat.beq_eq_true_eq _ _ ▸ hk
      subst this
      simp [keyPresent] at hpres ⊢
      exact hpres
  · rename_i hpres
    simp [keyPresent, freshRow, rowMatches, List.any_append]

/-- When the key is already present an upsert is a pure in-place update:
row count, auto-increment cursor, ids and filepaths all unchanged. -/
theorem upsert_present_shape (hash : String → Nat) (t : FilesTable) (m : FileMetadata)
    (h : keyPresent hash t (hash m.filepath) = true) :
    (insert_on_duplicate_key_update hash t m).rows.length = t.rows.length ∧
    (insert_on_duplicate_key_update hash t m).nextId = t.nextId ∧
    (insert_on_duplicate_key_update hash t m).rows.map (fun r => (r.id, r.filepath))
      = t.rows.map (fun r => (r.id, r.filepath)) := by
  unfold insert_on_duplicate_key_update
  rw [if_pos h]
  refine ⟨by simp, rfl, ?_⟩
  rw [List.map_map]
  apply List.map_congr_left
  intro r _
  by_cases hr : rowMatches hash (hash m.filepath) r = true
  · simp [Function.comp, hr, updateRowFields]
  · simp [Function.comp, hr]

/-- Key membership after a whole batch: the old keys plus the keys of
the batch. -/
theorem keyPresent_executeMany (hash : String → Nat) :
    ∀ (ms : List FileMetadata) (t : FilesTable) (k : Nat),
      keyPresent hash (executeManyUpsert hash t ms) k
        = (keyPresent hash t k || keyIn (hashKeys hash ms) k) := by
  intro ms
  induction ms with
  | nil => intro t k; simp [executeManyUpsert, keyIn, hashKeys]
  | cons a ms ih =>
    intro t k
    show keyPresent hash (executeManyUpsert hash (insert_on_duplicate_key_update hash t a) ms) k = _
    rw [ih, keyPresent_upsert]
    simp only [keyIn, hashKeys, List.map_cons, List.any_cons]
    cases keyPresent hash t k <;> cases (hash a.filepath == k) <;> simp

/-- Upserting a batch of fresh, pairwise-distinct keys appends one row
per record. -/
theorem executeMany_length_fresh (hash : String → Nat) :
    ∀ (ms : List FileMetadata) (t : FilesTable),
      (hashKeys hash ms).Nodup →
      (∀ m ∈ ms, keyPresent hash t (hash m.filepath) = false) →
      (executeManyUpsert hash t ms).rows.length = t.rows.length + ms.length := by
  intro ms
  induction ms with
  | nil => intro t _ _; simp [executeManyUpsert]
  | cons a ms ih =>
    intro t hnd hfresh
    have hna : keyPresent hash t (hash a.filepath) = false := hfresh a (List.mem_cons_self _ _)
    have hup : insert_on_duplicate_key_update hash t a
        = { rows := t.rows ++ [freshRow t a], nextId := t.nextId + 1 } := by
      unfold insert_on_duplicate_key_update
      rw [if_neg (by simp [hna])]
    simp only [hashKeys, List.map_cons, List.nodup_cons] at hnd
    obtain ⟨hka, hnd'⟩ := hnd
    show (executeManyUpsert hash (insert_on_duplicate_key_update hash t a) ms).rows.length = _
    rw [ih (insert_on_duplicate_key_update hash t a) hnd' ?_]
    · rw [hup]
      simp only [List.length_append, List.length_cons, List.length_nil, List.length_cons]
      omega
    · intro m hm
      rw [keyPresent_upsert]
      have h1 : keyPresent hash t (hash m.filepath) = false := hfresh m (List.mem_cons_of_mem _ hm)
      have h2 : (hash a.filepath == hash m.filepath) = false := by
        have : hash a.filepath ≠ hash m.filepath := by
          intro hcontra
          exact hka (hcontra ▸ List.mem_map_of_mem (fun x => hash x.filepath) hm)
        simpa using this
      rw [h1, h2]
      rfl

/-- Upserting a batch whose keys are all already present never grows the
table. -/
theorem executeMany_length_present (hash : String → Nat) :
    ∀ (ms : List FileMetadata) (t : FilesTable),
      (∀ m ∈ ms, keyPresent hash t (hash m.filepath) = true) →
      (executeManyUpsert hash t ms).rows.length = t.rows.length := by
  intro ms
  induction ms with
  | nil => intro t _; rfl
  | cons a ms ih =>
    intro t hpres
    have ha : keyPresent hash t (hash a.filepath) = true := hpres a (List.mem_cons_self _ _)
    show (executeManyUpsert hash (insert_on_duplicate_key_update hash t a) ms).rows.length = _
    rw [ih (insert_on_duplicate_key_update hash t a) ?_]
    · exact (upsert_present_shape hash t a ha).1
    · intro m hm
      rw [keyPresent_upsert, hpres m (List.mem_cons_of_mem _ hm)]
      rfl

/-- A row whose key differs from the upserted record's key survives the
upsert untouched. -/
theorem row_survives_upsert (hash : String → Nat) (t : FilesTable) (m : FileMetadata)
    {r : DBRow} (hr : r ∈ t.rows)
    (hne : rowMatches hash (hash m.filepath) r = false) :
    r ∈ (insert_on_duplicate_key_update hash t m).rows := by
  unfold insert_on_duplicate_key_update
  split
  · exact List.mem_map.mpr ⟨r, hr, by rw [hne]; rfl⟩
  · exact List.mem_append_left _ hr

/-- Re-upserting a record whose row is already in the table keeps a row
with that record's filepath and fields. -/
theorem hasRecord_upsert_self (hash : String → Nat) (t : FilesTable) (m : FileMetadata)
    (h : tableHasRecord t m) :
    tableHasRecord (insert_on_duplicate_key_update hash t m) m := by
  obtain ⟨r, hr, hfp, hfn, hext, hsz, hct, hmt, htg⟩ := h
  have hmatch : rowMatches hash (hash m.filepath) r = true := by
    simp [rowMatches, hfp]
  have hpres : keyPresent hash t (hash m.filepath) = true :=
    List.any_eq_true.mpr ⟨r, hr, hmatch⟩
  refine ⟨updateRowFields m r, ?_, ?_⟩
  · unfold insert_on_duplicate_key_update
    rw [if_pos hpres]
    exact List.mem_map.mpr ⟨r, hr, by simp [hmatch]⟩
  · simp [updateRowFields, hfp]

/-- Upserting a record with a different key preserves a stored record. -/
theorem hasRecord_upsert_other (hash : String → Nat) (t : FilesTable)
    (m mp : FileMetadata) (h : tableHasRecord t m)
    (hne : hash mp.filepath ≠ hash m.filepath) :
    tableHasRecord (insert_on_duplicate_key_update hash t mp) m := by
  obtain ⟨r, hr, hfp, hfn, hext, hsz, hct, hmt, htg⟩ := h
  have hnm : rowMatches hash (hash mp.filepath) r = false := by
    simp only [rowMatches, hfp]
    simpa using fun hcontra => hne hcontra.symm
  exact ⟨r, row_survives_upsert hash t mp hr hnm, hfp, hfn, hext, hsz, hct, hmt, htg⟩

/-- A stored record with a key distinct from every key of a batch
survives the whole batch. -/
theorem hasRecord_executeMany_of_ne (hash : String → Nat) :
    ∀ (ms : List FileMetadata) (t : FilesTable) (m : FileMetadata),
      tableHasRecord t m →
      (∀ mp ∈ ms, hash mp.filepath ≠ hash m.filepath) →
      tableHasRecord (executeManyUpsert hash t ms) m := by
  intro ms
  induction ms with
  | nil => intro t m h _; exact h
  | cons a ms ih =>
    intro t m h hne
    exact ih _ m
      (hasRecord_upsert_other hash t m a h (hne a (List.mem_cons_self _ _)))
      (fun mp hmp => hne mp (List.mem_cons_of_mem _ hmp))

/-- A fresh upsert stores the record verbatim. -/
theorem hasRecord_upsert_fresh (hash : String → Nat) (t : FilesTable) (m : FileMetadata)
    (h : keyPresent hash t (hash m.filepath) = false) :
    tableHasRecord (insert_on_duplicate_key_update hash t m) m := by
  refine ⟨freshRow t m, ?_, rfl, rfl, rfl, rfl, rfl, rfl, rfl⟩
  unfold insert_on_duplicate_key_update
  rw [if_neg (by simp [h])]
  exact List.mem_append_right _ (List.mem_cons_self _ _)

/-- Upserting a batch of fresh, pairwise-distinct keys stores every
record of the batch verbatim. -/
theorem executeMany_hasRecord_fresh (hash : String → Nat) :
    ∀ (ms : List FileMetadata) (t : FilesTable),
      (hashKeys hash ms).Nodup →
      (∀ m ∈ ms, keyPresent hash t (hash m.filepath) = false) →
      ∀ m ∈ ms, tableHasRecord (executeManyUpsert hash t ms) m := by
  intro ms
  induction ms with
  | nil => intro t _ _ m hm; cases hm
  | cons a ms ih =>
    intro t hnd hfresh m hm
    simp only [hashKeys, List.map_cons, List.nodup_cons] at hnd
    obtain ⟨hka, hnd'⟩ := hnd
    rcases List.mem_cons.mp hm with rfl | hm
    · show tableHasRecord (executeManyUpsert hash (insert_on_duplicate_key_update hash t m) ms) m
      apply hasRecord_executeMany_of_ne hash ms _ m
        (hasRecord_upsert_fresh hash t m (hfresh m (List.mem_cons_self _ _)))
      intro mp hmp hcontra
      exact hka (hcontra ▸ List.mem_map_of_mem (fun x => hash x.filepath) hmp)
    · show tableHasRecord (executeManyUpsert hash (insert_on_duplicate_key_update hash t a) ms) m
      apply ih _ hnd'
      · intro mp hmp
        rw [keyPresent_upsert]
        have h1 : keyPresent hash t (hash mp.filepath) = false :=
          hfresh mp (List.mem_cons_of_mem _ hmp)
        have h2 : (hash a.filepath == hash mp.filepath) = false := by
          have : hash a.filepath ≠ hash mp.filepath := by
            intro hcontra
            exact hka (hcontra ▸ List.mem_map_of_mem (fun x => hash x.filepath) hmp)
          simpa using this
        rw [h1, h2]
        rfl
      · exact hm

/-- Re-running a batch whose records are all already stored keeps every
record stored. -/
theorem executeMany_hasRecord_again (hash : String → Nat) :
    ∀ (ms : List FileMetadata) (t : FilesTable),
      (hashKeys hash ms).Nodup →
      (∀ m ∈ ms, tableHasRecord t m) →
      ∀ m ∈ ms, tableHasRecord (executeManyUpsert hash t ms) m := by
  intro ms
  induction ms with
  | nil => intro t _ _ m hm; cases hm
  | cons a ms ih =>
    intro t hnd hstored m hm
    simp only [hashKeys, List.map_cons, List.nodup_cons] at hnd
    obtain ⟨hka, hnd'⟩ := hnd
    rcases List.mem_cons.mp hm with rfl | hm
    · show tableHasRecord (executeManyUpsert hash (insert_on_duplicate_key_update hash t m) ms) m
      apply hasRecord_executeMany_of_ne hash ms _ m
        (hasRecord_upsert_self hash t m (hstored m (List.mem_cons_self _ _)))
      intro mp hmp hcontra
      exact hka (hcontra ▸ List.mem_map_of_mem (fun x => hash x.filepath) hmp)
    · show tableHasRecord (executeManyUpsert hash (insert_on_duplicate_key_update hash t a) ms) m
      apply ih _ hnd' ?_ m hm
      intro mp hmp
      have hne : hash a.filepath ≠ hash mp.filepath := by
        intro hcontra
        exact hka (hcontra ▸ List.mem_map_of_mem (fun x => hash x.filepath) hmp)
      exact hasRecord_upsert_other hash t mp a (hstored mp (List.mem_cons_of_mem _ hmp)) hne

theorem exRoots_dirs : rootsAreDirs exRoots := by
  intro r hr
  simp only [exRoots, List.mem_singleton] at hr
  subst hr
  rfl

/-- Claim C1: in every reachable scan state, a newly discovered
subdirectory is submitted to the work queue (incrementing the pending
count) strictly before the worker marks the current directory task
complete: `task_done` is not enabled while listing entries remain, each
directory entry processed performs the `put` with its pending increment,
and the pending count is strictly positive whenever some worker is still
expanding a directory listing it has not finished. -/
theorem c1_subdir_submitted_before_complete
    (roots : List (String × FSNode)) (nw : Nat) (acts : List ScanAction) (s : ScanState)
    (hroots : rootsAreDirs roots)
    (hrun : runScan (initScanState roots nw) acts = some s) :
    (∀ (w : Nat) (p : String) (es : List FSNode),
      s.workers[w]? = some (WorkerState.expanding p es) → 0 < s.pending) ∧
    (∀ (w : Nat) (p : String) (e : FSNode) (es : List FSNode),
      s.workers[w]? = some (WorkerState.expanding p (e :: es)) →
      applyScanAction s (ScanAction.completeTask w) = none) ∧
    (∀ (w : Nat) (p name : String) (out : ListOutcome) (cs es : List FSNode),
      s.workers[w]? = some (WorkerState.expanding p (FSNode.dir name out cs :: es)) →
      ∃ s', applyScanAction s (ScanAction.processEntry w) = some s' ∧
        s'.queue = s.queue ++ [QItem.task (joinPath p name) (FSNode.dir name out cs)] ∧
        s'.pending = s.pending + 1) := by
  have hInv := runScan_inv acts _ s (initScanState_inv roots nw hroots) hrun
  refine ⟨?_, ?_, ?_⟩
  · intro w p es hw
    have h1 : wExpandWeight (.expanding p es) ≤ (s.workers.map wExpandWeight).sum :=
      sum_map_le_of_getElem? wExpandWeight hw
    simp only [wExpandWeight] at h1
    have h2 := hInv.pending_eq
    omega
  · intro w p e es hw
    simp only [applyScanAction, hw]
  · intro w p name out cs es hw
    refine ⟨{ s with
        queue := s.queue ++ [QItem.task (joinPath p name) (FSNode.dir name out cs)],
        workers := s.workers.set w (WorkerState.expanding p es),
        pending := s.pending + 1, totalDirs := s.totalDirs + 1,
        everQuiesced := tickQuiesced s }, ?_, rfl, rfl⟩
    simp only [applyScanAction, hw]

theorem c1_witness :
    ∃ s, runScan (initScanState exRoots 1) [ScanAction.takeTask 0] = some s ∧ 0 < s.pending := by
  refine ⟨_, rfl, ?_⟩
  exact (c1_subdir_submitted_before_complete exRoots 1 [ScanAction.takeTask 0] _
    exRoots_dirs rfl).1 0 "/r" (childEntries exTree) rfl

/-- Claim C2: sentinels are injected exactly once, one per worker, and
only after the pending counter was observed at zero; hence an exited
worker implies the flag history records quiescence, the number of exited
workers plus queued sentinels always equals the number of injected
sentinels (workers each observe exactly one), and after injection any
idle worker can take a sentinel and exit, so no worker blocks forever. -/
theorem c2_sentinels_only_after_quiescence
    (roots : List (String × FSNode)) (nw : Nat) (acts : List ScanAction) (s : ScanState)
    (hroots : rootsAreDirs roots)
    (hrun : runScan (initScanState roots nw) acts = some s) :
    ((s.workers.map wExitWeight).sum + (s.queue.map qSentWeight).sum
        = if s.sentinelsSent = true then s.numWorkers else 0) ∧
    (∀ (w : Nat), s.workers[w]? = some WorkerState.exited →
        s.sentinelsSent = true ∧ s.everQuiesced = true) ∧
    (s.sentinelsSent = true → ∀ (w : Nat), s.workers[w]? = some WorkerState.idle →
      ∃ s', applyScanAction s (ScanAction.takeTask w) = some s' ∧
        s'.workers[w]? = some WorkerState.exited) := by
  have hInv := runScan_inv acts _ s (initScanState_inv roots nw hroots) hrun
  obtain ⟨hlen, hpend, hsent, hqsc, hnt, hnx, hdc, hfc, hrf, hqd⟩ := hInv
  refine ⟨hsent, ?_, ?_⟩
  · intro w hw
    have h1 : wExitWeight .exited ≤ (s.workers.map wExitWeight).sum :=
      sum_map_le_of_getElem? wExitWeight hw
    simp only [wExitWeight] at h1
    have hsentB : s.sentinelsSent = true := by
      cases hb : s.sentinelsSent with
      | true => rfl
      | false => rw [hb] at hsent; simp at hsent; omega
    exact ⟨hsentB, hqsc hsentB⟩
  · intro hsb w hw
    have hnt0 := hnt hsb
    rw [hsb] at hsent
    simp at hsent
    have hwlt : w < s.workers.length := getElem?_some_lt hw
    have hexit_lt : (s.workers.map wExitWeight).sum < s.workers.length := by
      by_contra hge
      push_neg at hge
      have hle := sum_map_le_length wExitWeight
        (by intro x; cases x <;> simp [wExitWeight]) s.workers
      have heq : (s.workers.map wExitWeight).sum = s.workers.length := le_antisymm hle hge
      have := all_one_of_sum_eq_length wExitWeight
        (by intro x; cases x <;> simp [wExitWeight]) s.workers heq
        WorkerState.idle (List.getElem?_mem hw)
      simp [wExitWeight] at this
    have hsent_pos : 0 < (s.queue.map qSentWeight).sum := by omega
    cases hqe : s.queue with
    | nil => rw [hqe] at hsent_pos; simp at hsent_pos
    | cons i rest =>
      have hi : i = QItem.sentinel := by
        rw [hqe] at hnt0
        simp only [List.map_cons, List.sum_cons] at hnt0
        cases i with
        | task p n => simp only [qTaskWeight] at hnt0; omega
        | sentinel => rfl
      subst hi
      refine ⟨{ s with
          queue := rest, workers := s.workers.set w WorkerState.exited,
          pending := s.pending - 1, everQuiesced := tickQuiesced s }, ?_, ?_⟩
      · simp only [applyScanAction, hw, hqe]
      · exact List.getElem?_set_eq_of_lt _ hwlt

theorem c2_witness :
    ∃ s, runScan (initScanState exRoots 1)
      [ScanAction.takeTask 0, ScanAction.processEntry 0, ScanAction.processEntry 0,
       ScanAction.completeTask 0, ScanAction.takeTask 0, ScanAction.completeTask 0,
       ScanAction.injectSentinels, ScanAction.takeTask 0] = some s ∧
      s.sentinelsSent = true ∧ s.everQuiesced = true := by
  have h := c2_sentinels_only_after_quiescence exRoots 1
    [ScanAction.takeTask 0, ScanAction.processEntry 0, ScanAction.processEntry 0,
     ScanAction.completeTask 0, ScanAction.takeTask 0, ScanAction.completeTask 0,
     ScanAction.injectSentinels, ScanAction.takeTask 0] _ exRoots_dirs rfl
  exact ⟨_, rfl, h.2.1 0 rfl⟩

theorem dirCount_cons (e : FSNode) (es : List FSNode) :
    dirCount (e :: es) = (if e.isDirB then 1 else 0) + dirCount es := by
  simp [dirCount]

/-- From any state in which a worker holds a dequeued directory task,
iterating the remaining entries and then running the `finally` clause is
always enabled and returns the worker to its take loop, with a net
pending-count effect of the discovered subdirectories minus the one
completed task. -/
theorem expand_then_complete (w : Nat) :
    ∀ (es : List FSNode) (s : ScanState) (p : String),
      s.workers[w]? = some (WorkerState.expanding p es) →
      ∃ s', runScan s (List.replicate es.length (ScanAction.processEntry w)
            ++ [ScanAction.completeTask w]) = some s' ∧
        s'.workers = s.workers.set w WorkerState.idle ∧
        s'.pending = s.pending + dirCount es - 1 := by
  intro es
  induction es with
  | nil =>
    intro s p hw
    refine ⟨{ s with
        workers := s.workers.set w WorkerState.idle,
        pending := s.pending - 1, everQuiesced := tickQuiesced s }, ?_, rfl, ?_⟩
    · simp only [List.length_nil, List.replicate, List.nil_append, runScan, applyScanAction, hw]
    · simp [dirCount]
  | cons e rest ih =>
    intro s p hw
    have hwlt : w < s.workers.length := getElem?_some_lt hw
    have hwlt2 : w < (s.workers.set w (WorkerState.expanding p rest)).length := by
      simpa [List.length_set] using hwlt
    have hw2 : ∀ (t : ScanState), t.workers = s.workers.set w (WorkerState.expanding p rest) →
        t.workers[w]? = some (WorkerState.expanding p rest) := by
      intro t ht
      rw [ht]
      exact List.getElem?_set_eq_of_lt _ hwlt
    cases e with
    | dir name out cs =>
      obtain ⟨s3, hrun3, hws3, hpend3⟩ := ih
        { s with
          queue := s.queue ++ [QItem.task (joinPath p name) (FSNode.dir name out cs)],
          workers := s.workers.set w (WorkerState.expanding p rest),
          pending := s.pending + 1, totalDirs := s.totalDirs + 1,
          everQuiesced := tickQuiesced s } p (hw2 _ rfl)
      refine ⟨s3, ?_, ?_, ?_⟩
      · rw [List.length_cons, List.replicate_succ, List.cons_append]
        simp only [runScan, applyScanAction, hw]
        exact hrun3
      · rw [hws3]
        simp only [List.set_set]
      · simp only at hpend3
        rw [hpend3, dirCount_cons]
        simp [FSNode.isDirB]
        try omega
    | file name st =>
      cases st with
      | some stv =>
        obtain ⟨s3, hrun3, hws3, hpend3⟩ := ih
          { s with
            records := s.records ++ [metadataFromStat (joinPath p name) stv],
            totalFiles := s.totalFiles + 1,
            workers := s.workers.set w (WorkerState.expanding p rest),
            everQuiesced := tickQuiesced s } p (hw2 _ rfl)
        refine ⟨s3, ?_, ?_, ?_⟩
        · rw [List.length_cons, List.replicate_succ, List.cons_append]
          simp only [runScan, applyScanAction, hw]
          exact hrun3
        · rw [hws3]
          simp only [List.set_set]
        · simp only at hpend3
          rw [hpend3, dirCount_cons]
          simp [FSNode.isDirB]
          try omega
      | none =>
        obtain ⟨s3, hrun3, hws3, hpend3⟩ := ih
          { s with
            workers := s.workers.set w (WorkerState.expanding p rest),
            everQuiesced := tickQuiesced s } p (hw2 _ rfl)
        refine ⟨s3, ?_, ?_, ?_⟩
        · rw [List.length_cons, List.replicate_succ, List.cons_append]
          simp only [runScan, applyScanAction, hw]
          exact hrun3
        · rw [hws3]
          simp only [List.set_set]
        · simp only at hpend3
          rw [hpend3, dirCount_cons]
          simp [FSNode.isDirB]
          try omega
    | other name =>
      obtain ⟨s3, hrun3, hws3, hpend3⟩ := ih
        { s with
          workers := s.workers.set w (WorkerState.expanding p rest),
          everQuiesced := tickQuiesced s } p (hw2 _ rfl)
      refine ⟨s3, ?_, ?_, ?_⟩
      · rw [List.length_cons, List.replicate_succ, List.cons_append]
        simp only [runScan, applyScanAction, hw]
        exact hrun3
      · rw [hws3]
        simp only [List.set_set]
      · simp only at hpend3
        rw [hpend3, dirCount_cons]
        simp [FSNode.isDirB]
        try omega

/-- Claim C4: every dequeued directory task is marked complete on every
exit path of the worker's processing: the dequeue-and-list step never
fails and never aborts the crawl whatever the listing outcome (success,
permission error skipped silently with no log line, any other error
logged), and from the resulting expansion state the remaining entries
and the `finally: task_done()` always run, returning the worker to its
loop with the completed task counted exactly once. -/
theorem c4_task_done_on_every_exit_path :
    (∀ (s : ScanState) (w : Nat) (p : String) (n : FSNode) (rest : List QItem),
      s.workers[w]? = some WorkerState.idle → s.queue = QItem.task p n :: rest →
      applyScanAction s (ScanAction.takeTask w)
        = some { s with
            queue := rest,
            workers := s.workers.set w (WorkerState.expanding p (childEntries n)),
            scanLog := s.scanLog ++ takeLog p n,
            everQuiesced := tickQuiesced s }) ∧
    (∀ (s : ScanState) (w : Nat) (p : String) (es : List FSNode),
      s.workers[w]? = some (WorkerState.expanding p es) →
      ∃ s', runScan s (List.replicate es.length (ScanAction.processEntry w)
            ++ [ScanAction.completeTask w]) = some s' ∧
        s'.workers = s.workers.set w WorkerState.idle ∧
        s'.pending = s.pending + dirCount es - 1) ∧
    (∀ nm cs p, childEntries (FSNode.dir nm ListOutcome.permError cs) = [] ∧
      takeLog p (FSNode.dir nm ListOutcome.permError cs) = []) ∧
    (∀ nm msg cs p, childEntries (FSNode.dir nm (ListOutcome.otherError msg) cs) = [] ∧
      takeLog p (FSNode.dir nm (ListOutcome.otherError msg) cs)
        = ["Error scanning " ++ p ++ ": " ++ msg]) ∧
    (∀ nm cs, childEntries (FSNode.dir nm ListOutcome.ok cs) = cs ∧
      ∀ p, takeLog p (FSNode.dir nm ListOutcome.ok cs) = []) := by
  refine ⟨?_, ?_, ?_, ?_, ?_⟩
  · intro s w p n rest hw hq
    simp only [applyScanAction, hw, hq]
  · intro s w p es hw
    exact expand_then_complete w es s p hw
  · intro nm cs p
    exact ⟨rfl, rfl⟩
  · intro nm msg cs p
    exact ⟨rfl, rfl⟩
  · intro nm cs
    exact ⟨rfl, fun p => rfl⟩

theorem c4_witness :
    ∃ s', runScan exDropState (List.replicate 1 (ScanAction.processEntry 0)
        ++ [ScanAction.completeTask 0]) = some s' ∧
      s'.workers = [WorkerState.idle] ∧ s'.pending = 0 := by
  obtain ⟨s', h1, h2, h3⟩ := (c4_task_done_on_every_exit_path).2.1 exDropState 0 "/r"
    [FSNode.file "b.txt" none] rfl
  refine ⟨s', h1, ?_, ?_⟩
  · rw [h2]; rfl
  · rw [h3]; rfl

/-- Claim C7 as stated is false on the code: `total_directories_scanned`
is incremented when a directory is discovered (`put`), so a reachable
but permission-denied subdirectory is counted even though it is not
accessible.  With one accessible root containing one accessible file and
one permission-denied subdirectory, the crawl terminates with the
counter at 2 while only 1 reachable directory is accessible. -/
theorem c7_counterexample :
    ∃ s, runScan (initScanState exRoots 1)
      [ScanAction.takeTask 0, ScanAction.processEntry 0, ScanAction.processEntry 0,
       ScanAction.completeTask 0, ScanAction.takeTask 0, ScanAction.completeTask 0]
      = some s ∧
      s.pending = 0 ∧ s.totalDirs = 2 ∧ rootsAccessibleDirsTotal exRoots = 1 ∧
      s.totalDirs ≠ rootsAccessibleDirsTotal exRoots := by
  exact ⟨_, rfl, rfl, rfl, rfl, by decide⟩

/-- Claim C7 (amended): at quiescence the records pushed to the database
queue are exactly the F accessible files under the roots, and a writer
with a never-failing sink persists exactly those F records (the record
queue is `deque.append`, an atomic operation, so this clause holds for
any worker count).  The total-directories counter measures discovery,
not accessibility, and its increment is a bare non-atomic `+= 1` on a
shared attribute that can lose updates when two workers interleave; so
the exact counter value is only guaranteed for a single-worker run,
where increments cannot interleave and the atomic counter step of this
model is faithful: there it equals the number of DISCOVERED directories
— the roots plus every subdirectory entry of a successfully listed
directory, whether or not that subdirectory is itself accessible. -/
theorem c7_quiescent_totals
    (roots : List (String × FSNode)) (nw : Nat) (acts : List ScanAction) (s : ScanState)
    (hroots : rootsAreDirs roots)
    (hrun : runScan (initScanState roots nw) acts = some s)
    (hq : s.pending = 0) :
    s.records.length = rootsFilesTotal roots ∧
    (∃ w, runWriter { initWriterState with fileQueue := s.records, finished := true }
        (List.replicate (s.records.length + 1) (WriterAction.step true)) = some w ∧
      w.writerDone = true ∧ w.persisted.length = rootsFilesTotal roots) ∧
    (nw = 1 → s.totalDirs = rootsDirsTotal roots ∧ s.totalFiles = rootsFilesTotal roots) := by
  have hInv := runScan_inv acts _ s (initScanState_inv roots nw hroots) hrun
  obtain ⟨hlen, hpend, hsent, hqsc, hnt, hnx, hdc, hfc, hrf, hqd⟩ := hInv
  rw [hq] at hpend
  have htask0 : (s.queue.map qTaskWeight).sum = 0 := by omega
  have hexp0 : (s.workers.map wExpandWeight).sum = 0 := by omega
  have hqfd : (s.queue.map qFutureDirs).sum = 0 := by
    apply sum_map_zero_of qTaskWeight qFutureDirs ?_ s.queue htask0
    intro i hi
    cases i with
    | task p n => simp [qTaskWeight] at hi
    | sentinel => rfl
  have hqff : (s.queue.map qFutureFiles).sum = 0 := by
    apply sum_map_zero_of qTaskWeight qFutureFiles ?_ s.queue htask0
    intro i hi
    cases i with
    | task p n => simp [qTaskWeight] at hi
    | sentinel => rfl
  have hwfd : (s.workers.map wFutureDirs).sum = 0 := by
    apply sum_map_zero_of wExpandWeight wFutureDirs ?_ s.workers hexp0
    intro x hx
    cases x with
    | idle => rfl
    | expanding p es => simp [wExpandWeight] at hx
    | exited => rfl
  have hwff : (s.workers.map wFutureFiles).sum = 0 := by
    apply sum_map_zero_of wExpandWeight wFutureFiles ?_ s.workers hexp0
    intro x hx
    cases x with
    | idle => rfl
    | expanding p es => simp [wExpandWeight] at hx
    | exited => rfl
  have hdirs : s.totalDirs = rootsDirsTotal roots := by omega
  have hfiles : s.totalFiles = rootsFilesTotal roots := by omega
  have hrecs : s.records.length = rootsFilesTotal roots := by omega
  refine ⟨hrecs, ?_, fun _ => ⟨hdirs, hfiles⟩⟩
  obtain ⟨w, hw1, hw2, hw3⟩ := writer_drain s.records
    { initWriterState with fileQueue := s.records, finished := true } rfl rfl rfl
  refine ⟨w, hw1, hw2, ?_⟩
  rw [hw3]
  simp [initWriterState]
  omega

theorem c7_witness :
    ∃ s, runScan (initScanState exRoots 1)
      [ScanAction.takeTask 0, ScanAction.processEntry 0, ScanAction.processEntry 0,
       ScanAction.completeTask 0, ScanAction.takeTask 0, ScanAction.completeTask 0]
      = some s ∧
      s.records.length = rootsFilesTotal exRoots ∧
      s.totalDirs = rootsDirsTotal exRoots := by
  have h := c7_quiescent_totals exRoots 1
    [ScanAction.takeTask 0, ScanAction.processEntry 0, ScanAction.processEntry 0,
     ScanAction.completeTask 0, ScanAction.takeTask 0, ScanAction.completeTask 0] _
    exRoots_dirs rfl rfl
  exact ⟨_, rfl, h.1, (h.2.2 rfl).1⟩

/-- Claim C9: the metadata extractor is a total function of the path and
the stat oracle: it yields `None` on every caught error class and
otherwise a record with all seven fields populated; and a worker that
receives `None` for a listed file drops it silently — no record pushed,
no counter change, the crawl untouched. -/
theorem c9_extractor_total_or_none (stat : String → Except StatError StatInfo) (p : String) :
    (∀ e, stat p = .error e → get_file_metadata stat p = none) ∧
    (∀ st, stat p = .ok st → get_file_metadata stat p = some
      { filepath := p, filename := os_path_basename p,
        extension := extensionOf (os_path_basename p), size := st.st_size,
        creation_time := st.st_ctime_ms, modification_time := st.st_mtime_ms, tags := "" }) ∧
    (∀ (s : ScanState) (w : Nat) (dp name : String) (es : List FSNode),
      s.workers[w]? = some (WorkerState.expanding dp (FSNode.file name none :: es)) →
      applyScanAction s (ScanAction.processEntry w)
        = some { s with
            workers := s.workers.set w (WorkerState.expanding dp es),
            everQuiesced := tickQuiesced s }) := by
  refine ⟨?_, ?_, ?_⟩
  · intro e he
    unfold get_file_metadata
    rw [he]
    cases e <;> rfl
  · intro st hst
    unfold get_file_metadata
    rw [hst]
    rfl
  · intro s w dp name es hw
    simp only [applyScanAction, hw]

theorem c9_witness :
    get_file_metadata exStatFail "/a/b.txt" = none ∧
    applyWriterAction initWriterState WriterAction.setFinished = some
      { initWriterState with finished := true } ∧
    applyScanAction exDropState (ScanAction.processEntry 0)
      = some { exDropState with
          workers := [WorkerState.expanding "/r" []],
          everQuiesced := tickQuiesced exDropState } := by
  refine ⟨(c9_extractor_total_or_none exStatFail "/a/b.txt").1 StatError.fileNotFound rfl,
    rfl, ?_⟩
  have h := (c9_extractor_total_or_none exStatFail "/a/b.txt").2.2 exDropState 0 "/r" "b.txt"
    [] rfl
  rw [h]
  rfl

/-- Claim C3: the writer loop exits only when the finished flag is set
and the record queue is empty, both observed together (an empty queue
with the flag unset makes the iteration sleep and continue); on exit the
trailing partial batch has been flushed; and every pushed record is
accounted for as persisted, lost with a failed batch, still queued or
batched — so at exit with no batch failures all R pushed records reached
the sink, for any R, multiple of the threshold or not. -/
theorem c3_writer_exits_only_finished_and_drained
    (acts : List WriterAction) (s : WriterState)
    (hrun : runWriter initWriterState acts = some s) :
    (s.writerDone = true → s.finished = true ∧ s.fileQueue = [] ∧ s.batch = []) ∧
    (s.pushedCount = s.persisted.length + s.lostCount + s.fileQueue.length + s.batch.length) ∧
    (s.writerDone = true → s.persisted.length + s.lostCount = s.pushedCount) ∧
    (∀ c, s.writerDone = false → s.fileQueue = [] → s.finished = false →
      applyWriterAction s (WriterAction.step c) = some s) := by
  have hInv := runWriter_inv acts _ s initWriterState_inv hrun
  obtain ⟨hc, hp, hdf, hdq, hdb⟩ := hInv
  refine ⟨fun hd => ⟨hdf hd, hdq hd, hdb hd⟩, hc, ?_, ?_⟩
  · intro hd
    rw [hdq hd, hdb hd] at hc
    simp only [List.length_nil] at hc
    omega
  · intro c hnd hq hnf
    simp [applyWriterAction, hnd, hq, hnf]

theorem c3_witness :
    ∃ s, runWriter initWriterState [WriterAction.push exM1, WriterAction.push exM2,
      WriterAction.setFinished, WriterAction.step true, WriterAction.step true,
      WriterAction.step true] = some s ∧
      s.writerDone = true ∧ s.persisted.length + s.lostCount = s.pushedCount := by
  have h := c3_writer_exits_only_finished_and_drained
    [WriterAction.push exM1, WriterAction.push exM2, WriterAction.setFinished,
     WriterAction.step true, WriterAction.step true, WriterAction.step true] _ rfl
  exact ⟨_, rfl, rfl, h.2.2.1 rfl⟩

/-- Claim C6: a failed batch commit is rolled back atomically — nothing
of the batch reaches the sink, the processed count is untouched, the
failure is logged — and the loop clears the batch without retrying and
keeps running; `processed_count` always equals the number of records in
successfully committed batches. -/
theorem c6_batch_failure_rolled_back_and_logged
    (acts : List WriterAction) (s : WriterState)
    (hrun : runWriter initWriterState acts = some s) :
    (∀ (b : List FileMetadata) (t : WriterState),
      (execute_batch false b t).persisted = t.persisted ∧
      (execute_batch false b t).processedCount = t.processedCount ∧
      (execute_batch false b t).errorLog = t.errorLog ++ ["Error during batch execution"] ∧
      (execute_batch false b t).fileQueue = t.fileQueue) ∧
    (∀ (b : List FileMetadata) (t : WriterState),
      (execute_batch true b t).persisted = t.persisted ++ b ∧
      (execute_batch true b t).processedCount = t.processedCount + b.length) ∧
    s.processedCount = s.persisted.length ∧
    (∀ (t : WriterState) (m : FileMetadata) (rest : List FileMetadata),
      t.writerDone = false → t.fileQueue = m :: rest →
      batch_size ≤ t.batch.length + 1 →
      ∃ u, applyWriterAction t (WriterAction.step false) = some u ∧
        u.batch = [] ∧ u.persisted = t.persisted ∧
        u.processedCount = t.processedCount ∧ u.writerDone = false ∧
        u.errorLog = t.errorLog ++ ["Error during batch execution"] ∧
        u.fileQueue = rest) := by
  refine ⟨?_, ?_, ?_, ?_⟩
  · intro b t
    rw [execute_batch_false]
    exact ⟨rfl, rfl, rfl, rfl⟩
  · intro b t
    rw [execute_batch_true]
    exact ⟨rfl, rfl⟩
  · exact (runWriter_inv acts _ s initWriterState_inv hrun).processed
  · intro t m rest hnd hq hth
    refine ⟨{ execute_batch false (t.batch ++ [m]) { t with fileQueue := rest } with
              batch := [] }, ?_, rfl, rfl, rfl, hnd, rfl, rfl⟩
    simp [applyWriterAction, hnd, hq, hth]

theorem c6_witness :
    ∃ s, runWriter initWriterState [WriterAction.push exM1, WriterAction.setFinished,
      WriterAction.step true, WriterAction.step false] = some s ∧
      s.processedCount = s.persisted.length ∧ s.lostCount = 1 ∧ s.errorLog.length = 1 := by
  have h := c6_batch_failure_rolled_back_and_logged
    [WriterAction.push exM1, WriterAction.setFinished, WriterAction.step true,
     WriterAction.step false] _ rfl
  exact ⟨_, rfl, h.2.2.1, rfl, rfl⟩

/-- Claim C10: the writer loop never reads the stop event: one loop
iteration commutes with any value of the stop flag, `stop_writer_thread`
does nothing to the pipeline state except setting the flag, and the only
exit condition remains the finished flag together with an empty record
queue. -/
theorem c10_stop_event_never_read
    (acts : List WriterAction) (s : WriterState)
    (hrun : runWriter initWriterState acts = some s) :
    (∀ (t : WriterState) (c b : Bool),
      applyWriterAction { t with stopEvent := b } (WriterAction.step c)
        = Option.map (fun u => { u with stopEvent := b })
            (applyWriterAction t (WriterAction.step c))) ∧
    (∀ (t : WriterState), applyWriterAction t WriterAction.setStop
        = some { t with stopEvent := true }) ∧
    (s.writerDone = true → s.finished = true ∧ s.fileQueue = []) := by
  have hInv := runWriter_inv acts _ s initWriterState_inv hrun
  refine ⟨?_, fun t => rfl, fun hd => ⟨hInv.done_finished hd, hInv.done_queue hd⟩⟩
  intro t c b
  by_cases hd : t.writerDone = true
  · simp [applyWriterAction, hd]
  · cases hq : t.fileQueue with
    | cons m rest =>
      by_cases hth : batch_size ≤ t.batch.length + 1
      · cases c <;> simp [applyWriterAction, hd, hq, hth, execute_batch]
      · simp [applyWriterAction, hd, hq, hth]
    | nil =>
      by_cases hf : t.finished = true
      · cases hbe : t.batch.isEmpty <;> cases c <;>
          simp [applyWriterAction, hd, hq, hf, hbe, execute_batch]
      · simp [applyWriterAction, hd, hq, hf]

theorem c10_witness :
    ∃ s, runWriter initWriterState [WriterAction.push exM1, WriterAction.setFinished,
      WriterAction.setStop, WriterAction.step true, WriterAction.step true] = some s ∧
      s.stopEvent = true ∧ s.finished = true ∧ s.fileQueue = [] := by
  have h := c10_stop_event_never_read
    [WriterAction.push exM1, WriterAction.setFinished, WriterAction.setStop,
     WriterAction.step true, WriterAction.step true] _ rfl
  exact ⟨_, rfl, rfl, h.2.2 rfl⟩

/-- Claim C5: persistence is an upsert keyed by the deterministic hash of
the filepath: re-upserting a record whose key is present updates the
matching row in place (same row count, same ids and filepaths, same
auto-increment cursor); crawling the same records once inserts one row
each, and a second identical run yields no row-count growth while every
record's row carries that record's metadata. -/
theorem c5_upsert_idempotent (hash : String → Nat) (ms : List FileMetadata)
    (hnd : (hashKeys hash ms).Nodup) :
    (∀ (t : FilesTable) (m : FileMetadata), keyPresent hash t (hash m.filepath) = true →
      (insert_on_duplicate_key_update hash t m).rows.length = t.rows.length ∧
      (insert_on_duplicate_key_update hash t m).nextId = t.nextId ∧
      (insert_on_duplicate_key_update hash t m).rows.map (fun r => (r.id, r.filepath))
        = t.rows.map (fun r => (r.id, r.filepath))) ∧
    (executeManyUpsert hash emptyTable ms).rows.length = ms.length ∧
    (executeManyUpsert hash (executeManyUpsert hash emptyTable ms) ms).rows.length
      = (executeManyUpsert hash emptyTable ms).rows.length ∧
    (∀ m ∈ ms, tableHasRecord
      (executeManyUpsert hash (executeManyUpsert hash emptyTable ms) ms) m) := by
  have hfresh : ∀ m ∈ ms, keyPresent hash emptyTable (hash m.filepath) = false := by
    intro m _
    rfl
  have hlen1 := executeMany_length_fresh hash ms emptyTable hnd hfresh
  have hkeys1 : ∀ m ∈ ms, keyPresent hash (executeManyUpsert hash emptyTable ms)
      (hash m.filepath) = true := by
    intro m hm
    rw [keyPresent_executeMany]
    have hmem : keyIn (hashKeys hash ms) (hash m.filepath) = true := by
      apply List.any_eq_true.mpr
      exact ⟨hash m.filepath, List.mem_map_of_mem _ hm, by simp⟩
    rw [hmem]
    simp
  refine ⟨upsert_present_shape hash, ?_, ?_, ?_⟩
  · rw [hlen1]
    simp [emptyTable]
  · exact executeMany_length_present hash ms _ hkeys1
  · exact executeMany_hasRecord_again hash ms _ hnd
      (executeMany_hasRecord_fresh hash ms emptyTable hnd hfresh)

theorem c5_witness :
    (executeManyUpsert String.length emptyTable exMs).rows.length = 2 ∧
    (executeManyUpsert String.length (executeManyUpsert String.length emptyTable exMs)
      exMs).rows.length = (executeManyUpsert String.length emptyTable exMs).rows.length := by
  have h := c5_upsert_idempotent String.length exMs (by decide)
  exact ⟨h.2.1, h.2.2.1⟩

/-- Claim C8 fails on the code: the run counters are bare shared
attributes updated by a non-atomic load-increment-store, so two
concurrent increment events can interleave their loads and lose one
update: the interleaving below performs two increments but leaves the
counter at 1, while the serialized schedule of the same two events
leaves it at 2. -/
theorem c8_lost_update_interleaving :
    storeCount [RaceAction.load 0, RaceAction.load 1, RaceAction.store 0,
      RaceAction.store 1] = 2 ∧
    (∃ s, runRace (initRaceState 2) [RaceAction.load 0, RaceAction.load 1,
      RaceAction.store 0, RaceAction.store 1] = some s ∧ s.counter = 1) ∧
    storeCount [RaceAction.load 0, RaceAction.store 0, RaceAction.load 1,
      RaceAction.store 1] = 2 ∧
    (∃ s, runRace (initRaceState 2) [RaceAction.load 0, RaceAction.store 0,
      RaceAction.load 1, RaceAction.store 1] = some s ∧ s.counter = 2) := by
  exact ⟨rfl, ⟨_, rfl, rfl⟩, rfl, ⟨_, rfl, rfl⟩⟩
